import Mathlib

/-!
Shallow embedding of the bytecraft binary cursor library
(src/common.rs, src/error.rs, src/reader/mod.rs, src/reader/readable.rs,
src/writer/mod.rs, src/writer/writable.rs) together with proofs about the
documented behaviour of its navigation and codec operations.

Modelling conventions:
* Byte buffers are `List Nat` (each entry a byte value); `usize` values are
  `Nat`, `isize` values are `Int`.  Rust overflow-checked arithmetic
  (`checked_add`, `checked_sub`) on positions is modelled by plain `Nat`
  arithmetic plus the bounds test: for every representable cursor state
  (`len < 2^64`, `pos <= len`) the overflow branch and the out-of-range
  branch of the source produce the same error constructor, so the unbounded
  model takes the same path as the machine-integer code.
* A Rust method `fn f(&mut self, ..) -> Result<A>` becomes a function
  `State -> Except Error A × State`: the second component is the state of
  the cursor after the call, which (as in Rust) survives an `Err` return.
* `Endian::Native` is resolved by an explicit parameter `nl : Bool`
  (`true` when the host is little-endian), so every theorem quantifies over
  both possible host byte orders.
* Floating values (`f32`, `f64`) are represented by their IEEE-754 bit
  patterns: the source converts them to and from bytes exclusively through
  `to_bits`-style byte-pattern conversions, so the byte-level codec is the
  unsigned codec of the same width.
-/

/-- Byte order, from src/common.rs `enum Endian`. -/
inductive Endian where
  | little : Endian
  | big : Endian
  | native : Endian
deriving DecidableEq, Repr

/-- Resolves an `Endian` to a concrete byte order: `true` means the bytes are
laid out least-significant first.  `nl` tells whether the host (the meaning of
`Endian::Native`) is little-endian. -/
def Endian.isLE (nl : Bool) : Endian → Bool
  | .little => true
  | .big => false
  | .native => nl

/-- Seek origin, from src/common.rs `enum SeekFrom`.  `Start` carries a
`usize`, the other two carry an `isize`. -/
inductive SeekFrom where
  | start (n : Nat) : SeekFrom
  | fromEnd (n : Int) : SeekFrom
  | current (n : Int) : SeekFrom
deriving DecidableEq, Repr

/-- Error taxonomy, from src/error.rs `enum Error`.  The `Utf8Error` payload of
`NotValidUTF8` and the boxed payload of `Custom` carry no information the
claims depend on, so they are dropped. -/
inductive Error where
  | insufficientData (requested : Nat) (available : Nat) : Error
  | outOfBounds (pos : Nat) (requested : Nat) (len : Nat) : Error
  | notValid : Error
  | notValidAscii : Error
  | notValidUTF8 : Error
  | custom : Error
deriving DecidableEq, Repr

/-- Reader cursor state, from src/reader/mod.rs `struct ByteReader`. -/
structure ByteReader where
  data : List Nat
  pos : Nat
  endian : Endian
deriving DecidableEq, Repr

/-- Writer cursor state, from src/writer/mod.rs `struct ByteWriter`. -/
structure ByteWriter where
  data : List Nat
  pos : Nat
  endian : Endian
deriving DecidableEq, Repr

/-- Shape of a reader method `fn f(&mut self, ..) -> Result<A>`: the returned
state is the cursor after the call, also when the result is an error. -/
def RM (α : Type) : Type := ByteReader → Except Error α × ByteReader

/-- Shape of a writer method `fn f(&mut self, ..) -> Result<A>`. -/
def WM (α : Type) : Type := ByteWriter → Except Error α × ByteWriter

/-- Rust `usize::is_power_of_two`: exactly one bit set. -/
def is_power_of_two (n : Nat) : Bool := decide (0 < n) && (n &&& (n - 1) == 0)

namespace ByteReader

/-- src/reader/mod.rs `ByteReader::new`. -/
def new (data : List Nat) : ByteReader := ⟨data, 0, Endian.native⟩

/-- src/reader/mod.rs `ByteReader::with_endian`. -/
def with_endian (data : List Nat) (endian : Endian) : ByteReader := ⟨data, 0, endian⟩

/-- src/reader/mod.rs `ByteReader::len`. -/
def len (r : ByteReader) : Nat := r.data.length

/-- src/reader/mod.rs `ByteReader::position`. -/
def position (r : ByteReader) : Nat := r.pos

/-- src/reader/mod.rs `ByteReader::rest_len`. -/
def rest_len (r : ByteReader) : Nat := r.len - r.position

/-- src/reader/mod.rs `ByteReader::is_eof`. -/
def is_eof (r : ByteReader) : Bool := r.position ≥ r.len

/-- src/reader/mod.rs `ByteReader::rest_bytes`. -/
def rest_bytes (r : ByteReader) : List Nat := r.data.drop r.pos

/-- src/reader/mod.rs `ByteReader::set_endian`. -/
def set_endian (e : Endian) (r : ByteReader) : ByteReader := { r with endian := e }

/-- src/reader/mod.rs `ByteReader::reset`. -/
def reset (r : ByteReader) : ByteReader := { r with pos := 0 }

/-- src/reader/mod.rs `ByteReader::set_position`. -/
def set_position (p : Nat) : RM Unit := fun r =>
  if p > r.len then
    (.error (.outOfBounds r.pos p r.len), r)
  else
    (.ok (), { r with pos := p })

/-- src/reader/mod.rs `ByteReader::skip` (`checked_add` then bounds test; see
the module comment for the overflow translation). -/
def skip (count : Nat) : RM Unit := fun r =>
  if r.pos + count ≤ r.len then
    (.ok (), { r with pos := r.pos + count })
  else
    (.error (.outOfBounds r.pos count r.len), r)

/-- src/reader/mod.rs `ByteReader::skip_force` (`saturating_add` then `min`). -/
def skip_force (count : Nat) (r : ByteReader) : ByteReader :=
  { r with pos := min (r.pos + count) r.len }

/-- src/reader/mod.rs `ByteReader::rewind` (`checked_sub`). -/
def rewind (count : Nat) : RM Unit := fun r =>
  if count ≤ r.pos then
    (.ok (), { r with pos := r.pos - count })
  else
    (.error (.outOfBounds r.pos count r.len), r)

/-- src/reader/mod.rs `ByteReader::rewind_force` (`saturating_sub`, which is
`Nat` subtraction). -/
def rewind_force (count : Nat) (r : ByteReader) : ByteReader :=
  { r with pos := r.pos - count }

/-- src/reader/mod.rs `ByteReader::align_up_dynamic`.  The bit trick
`(pos + (a-1)) & !(a-1)` clears the low bits of `pos + (a-1)`; for a power of
two `a` that equals subtracting the remainder modulo `a`. -/
def align_up_dynamic (a : Nat) : RM Unit := fun r =>
  if is_power_of_two a = false then
    (.error .notValid, r)
  else
    let q := r.pos + (a - 1)
    set_position (q - q % a) r

/-- src/reader/mod.rs `ByteReader::seek`. -/
def seek (s : SeekFrom) : RM Nat := fun r =>
  match s with
  | .start n =>
    match set_position n r with
    | (.ok _, r') => (.ok r'.pos, r')
    | (.error e, r') => (.error e, r')
  | .fromEnd n =>
    if n > 0 then
      (.error (.outOfBounds r.pos n.toNat r.len), r)
    else
      let m := (-n).toNat
      if m ≤ r.len then
        match set_position (r.len - m) r with
        | (.ok _, r') => (.ok r'.pos, r')
        | (.error e, r') => (.error e, r')
      else
        (.error (.outOfBounds r.pos m r.len), r)
  | .current n =>
    if n > 0 then
      match set_position (r.pos + n.toNat) r with
      | (.ok _, r') => (.ok r'.pos, r')
      | (.error e, r') => (.error e, r')
    else
      let m := (-n).toNat
      if m ≤ r.pos then
        match set_position (r.pos - m) r with
        | (.ok _, r') => (.ok r'.pos, r')
        | (.error e, r') => (.error e, r')
      else
        (.error (.outOfBounds r.pos m r.len), r)

/-- src/reader/mod.rs `ByteReader::check_bounds`. -/
def check_bounds (r : ByteReader) (size : Nat) : Except Error Unit :=
  if r.pos + size ≤ r.len then
    .ok ()
  else
    .error (.insufficientData size (r.len - r.position))

/-- src/reader/mod.rs `ByteReader::peek_exact`: a view of `size` bytes at the
current position, position unchanged. -/
def peek_exact (size : Nat) : RM (List Nat) := fun r =>
  match r.check_bounds size with
  | .ok _ => (.ok ((r.data.drop r.pos).take size), r)
  | .error e => (.error e, r)

/-- src/reader/mod.rs `ByteReader::read_exact`: the same bytes, position
advanced by `size`. -/
def read_exact (size : Nat) : RM (List Nat) := fun r =>
  match r.check_bounds size with
  | .ok _ => (.ok ((r.data.drop r.pos).take size), { r with pos := r.pos + size })
  | .error e => (.error e, r)

/-- src/reader/mod.rs `impl Read for ByteReader`: the stream-adapter read,
which truncates to the remaining length instead of failing. -/
def io_read (bufLen : Nat) (r : ByteReader) : ByteReader :=
  if r.rest_len = 0 then r
  else { r with pos := r.pos + min r.rest_len bufLen }

end ByteReader

/-- Little-endian byte representation of width `w`: Rust `uN::to_le_bytes`
applied to `v mod 2^(8w)`. -/
def nat_to_bytes_le : Nat → Nat → List Nat
  | 0, _ => []
  | w + 1, v => v % 256 :: nat_to_bytes_le w (v / 256)

/-- Value of a little-endian byte list: Rust `uN::from_le_bytes`. -/
def bytes_to_nat_le : List Nat → Nat
  | [] => 0
  | b :: bs => b + 256 * bytes_to_nat_le bs

/-- Byte representation of an unsigned value under a resolved byte order:
`to_le_bytes` / `to_be_bytes` / `to_ne_bytes` from
src/writer/writable.rs `impl_number!`.  Big-endian is the little-endian
layout reversed. -/
def uint_bytes (le : Bool) (w : Nat) (v : Nat) : List Nat :=
  if le then nat_to_bytes_le w v else (nat_to_bytes_le w v).reverse

/-- Decoding counterpart (`from_le_bytes` / `from_be_bytes` / `from_ne_bytes`
from src/reader/readable.rs `impl_number!`). -/
def uint_of_bytes (le : Bool) (bs : List Nat) : Nat :=
  if le then bytes_to_nat_le bs else bytes_to_nat_le bs.reverse

/-- Two's-complement byte representation of a signed value of width `w`
(`iN::to_le_bytes` etc.): the bytes of `v mod 2^(8w)`. -/
def int_bytes (le : Bool) (w : Nat) (v : Int) : List Nat :=
  uint_bytes le w (v.emod (2 ^ (8 * w))).toNat

/-- Two's-complement decoding of width `w`. -/
def int_of_bytes (le : Bool) (w : Nat) (bs : List Nat) : Int :=
  let n := uint_of_bytes le bs
  if n < 2 ^ (8 * w - 1) then (n : Int) else (n : Int) - 2 ^ (8 * w)

namespace ByteReader

/-- src/reader/readable.rs `impl_number!` (`impl Readable for uN`): read
`size_of` bytes, then convert with the reader's endianness.  Covers the
unsigned primitives `u8 .. u128`, `usize` (`w = 8`) and — at byte-pattern
level — `f32`/`f64`. -/
def read_uint (nl : Bool) (w : Nat) : RM Nat := fun r =>
  match read_exact w r with
  | (.ok bs, r') => (.ok (uint_of_bytes (r.endian.isLE nl) bs), r')
  | (.error e, r') => (.error e, r')

/-- src/reader/readable.rs `impl_number!` for the signed primitives
`i8 .. i128`, `isize`. -/
def read_int (nl : Bool) (w : Nat) : RM Int := fun r =>
  match read_exact w r with
  | (.ok bs, r') => (.ok (int_of_bytes (r.endian.isLE nl) w bs), r')
  | (.error e, r') => (.error e, r')

/-- src/reader/readable.rs `impl Readable for bool`: read a `u8`, then map
0 to `false`, 1 to `true`, anything else to `Error::NotValid`.  The inner
`u8` read advances the position even when the match rejects the byte. -/
def read_bool (nl : Bool) : RM Bool := fun r =>
  match read_uint nl 1 r with
  | (.ok 0, r') => (.ok false, r')
  | (.ok 1, r') => (.ok true, r')
  | (.ok _, r') => (.error .notValid, r')
  | (.error e, r') => (.error e, r')

end ByteReader

/-- Whether a byte is a UTF-8 continuation byte (`0x80 ..= 0xBF`). -/
def utf8_cont (b : Nat) : Bool := 128 ≤ b && b < 192

/-- Models Rust `std::str::from_utf8` validity: the standard UTF-8 table,
with the restricted ranges that exclude overlong forms, surrogates and
values above `U+10FFFF`. -/
def valid_utf8 : List Nat → Bool
  | [] => true
  | b :: rest =>
    if b < 128 then valid_utf8 rest
    else if b < 194 then false
    else if b < 224 then
      match rest with
      | c :: rest' => utf8_cont c && valid_utf8 rest'
      | [] => false
    else if b < 240 then
      match rest with
      | c :: d :: rest' =>
        (if b = 224 then 160 ≤ c && c < 192
         else if b = 237 then 128 ≤ c && c < 160
         else utf8_cont c) && utf8_cont d && valid_utf8 rest'
      | _ => false
    else if b < 245 then
      match rest with
      | c :: d :: e :: rest' =>
        (if b = 240 then 144 ≤ c && c < 192
         else if b = 244 then 128 ≤ c && c < 144
         else utf8_cont c) && utf8_cont d && utf8_cont e && valid_utf8 rest'
      | _ => false
    else false

/-- Rust `str::is_ascii` on the underlying bytes: every byte below 128. -/
def all_ascii (bs : List Nat) : Bool := bs.all (fun b => b < 128)

namespace ByteReader

/-- src/reader/mod.rs `ByteReader::peek_ascii`: peek `size` bytes, check
UTF-8 validity first, then the ASCII range. -/
def peek_ascii (size : Nat) : RM (List Nat) := fun r =>
  match peek_exact size r with
  | (.ok bs, r') =>
    if valid_utf8 bs then
      if all_ascii bs then (.ok bs, r') else (.error .notValidAscii, r')
    else (.error .notValidUTF8, r')
  | (.error e, r') => (.error e, r')

/-- src/reader/mod.rs `ByteReader::read_ascii`: like `peek_ascii` but through
`read_exact`, so the position advances before the validity checks run. -/
def read_ascii (size : Nat) : RM (List Nat) := fun r =>
  match read_exact size r with
  | (.ok bs, r') =>
    if valid_utf8 bs then
      if all_ascii bs then (.ok bs, r') else (.error .notValidAscii, r')
    else (.error .notValidUTF8, r')
  | (.error e, r') => (.error e, r')

/-- src/reader/readable.rs `impl Readable for Vec<T>`, element loop: read `n`
values with the element codec, in order. -/
def read_elems {α : Type} (re : RM α) : Nat → RM (List α)
  | 0 => fun r => (.ok [], r)
  | n + 1 => fun r =>
    match re r with
    | (.ok x, r') =>
      match read_elems re n r' with
      | (.ok xs, r'') => (.ok (x :: xs), r'')
      | (.error e, r'') => (.error e, r'')
    | (.error e, r') => (.error e, r')

/-- src/reader/readable.rs `impl Readable for Vec<T>`: a `u32` length prefix
followed by that many elements. -/
def read_vec {α : Type} (nl : Bool) (re : RM α) : RM (List α) := fun r =>
  match read_uint nl 4 r with
  | (.ok n, r') => read_elems re n r'
  | (.error e, r') => (.error e, r')

/-- `read_vec` at an unsigned element type of width `w`. -/
def read_vec_uint (nl : Bool) (w : Nat) : RM (List Nat) :=
  read_vec nl (read_uint nl w)

/-- Loop body of src/reader/readable.rs `impl Readable for CString`: read one
`u8` at a time, pushing it to the accumulator, and stop after pushing a zero
byte.  Each successful iteration advances the position by one, which bounds
the recursion by the remaining length. -/
def read_cstring_loop (nl : Bool) (acc : List Nat) (r : ByteReader) :
    Except Error (List Nat) × ByteReader :=
  match h : read_uint nl 1 r with
  | (.ok b, r') =>
    if b = 0 then (.ok (acc ++ [b]), r')
    else read_cstring_loop nl (acc ++ [b]) r'
  | (.error e, r') => (.error e, r')
termination_by r.data.length - r.pos
decreasing_by
  simp only [ByteReader.read_uint, ByteReader.read_exact, ByteReader.check_bounds,
    ByteReader.len] at h
  by_cases hb : r.pos + 1 ≤ r.data.length
  · simp only [if_pos hb] at h
    obtain ⟨-, rfl⟩ := h
    show r.data.length - (r.pos + 1) < r.data.length - r.pos
    omega
  · simp only [if_neg hb] at h
    simp at h

/-- Models Rust `CString::from_vec_with_nul` (standard library): succeeds
exactly when the vector ends with a nul byte and contains no interior nul,
returning the content without the terminator. -/
def from_vec_with_nul (v : List Nat) : Option (List Nat) :=
  if v.getLast? = some 0 ∧ ∀ b ∈ v.dropLast, b ≠ 0 then some v.dropLast else none

/-- src/reader/readable.rs `impl Readable for CString`: run the byte loop,
then validate the collected vector with `from_vec_with_nul`, wrapping its
error in `Error::Custom`. -/
def read_cstring (nl : Bool) : RM (List Nat) := fun r =>
  match read_cstring_loop nl [] r with
  | (.ok v, r') =>
    match from_vec_with_nul v with
    | some content => (.ok content, r')
    | none => (.error .custom, r')
  | (.error e, r') => (.error e, r')

end ByteReader

namespace ByteWriter

/-- src/writer/mod.rs `ByteWriter::new`. -/
def new (data : List Nat) : ByteWriter := ⟨data, 0, Endian.native⟩

/-- src/writer/mod.rs `ByteWriter::with_endian`. -/
def with_endian (data : List Nat) (endian : Endian) : ByteWriter := ⟨data, 0, endian⟩

/-- src/writer/mod.rs `ByteWriter::len`. -/
def len (w : ByteWriter) : Nat := w.data.length

/-- src/writer/mod.rs `ByteWriter::position`. -/
def position (w : ByteWriter) : Nat := w.pos

/-- src/writer/mod.rs `ByteWriter::rest_len`. -/
def rest_len (w : ByteWriter) : Nat := w.len - w.position

/-- src/writer/mod.rs `ByteWriter::is_eof`. -/
def is_eof (w : ByteWriter) : Bool := w.position ≥ w.len

/-- src/writer/mod.rs `ByteWriter::can_write`. -/
def can_write (w : ByteWriter) (size : Nat) : Bool := w.position + size ≤ w.len

/-- src/writer/mod.rs `ByteWriter::set_endian`. -/
def set_endian (e : Endian) (w : ByteWriter) : ByteWriter := { w with endian := e }

/-- src/writer/mod.rs `ByteWriter::reset`. -/
def reset (w : ByteWriter) : ByteWriter := { w with pos := 0 }

/-- src/writer/mod.rs `ByteWriter::set_position`. -/
def set_position (p : Nat) : WM Unit := fun w =>
  if p > w.len then
    (.error (.outOfBounds w.pos p w.len), w)
  else
    (.ok (), { w with pos := p })

/-- src/writer/mod.rs `ByteWriter::skip`. -/
def skip (count : Nat) : WM Unit := fun w =>
  if w.pos + count ≤ w.len then
    (.ok (), { w with pos := w.pos + count })
  else
    (.error (.outOfBounds w.pos count w.len), w)

/-- src/writer/mod.rs `ByteWriter::skip_force`. -/
def skip_force (count : Nat) (w : ByteWriter) : ByteWriter :=
  { w with pos := min (w.pos + count) w.len }

/-- src/writer/mod.rs `ByteWriter::rewind`. -/
def rewind (count : Nat) : WM Unit := fun w =>
  if count ≤ w.pos then
    (.ok (), { w with pos := w.pos - count })
  else
    (.error (.outOfBounds w.pos count w.len), w)

/-- src/writer/mod.rs `ByteWriter::rewind_force`. -/
def rewind_force (count : Nat) (w : ByteWriter) : ByteWriter :=
  { w with pos := w.pos - count }

/-- src/writer/mod.rs `ByteWriter::seek`, the same resolution logic as the
reader's. -/
def seek (s : SeekFrom) : WM Nat := fun w =>
  match s with
  | .start n =>
    match set_position n w with
    | (.ok _, w') => (.ok w'.pos, w')
    | (.error e, w') => (.error e, w')
  | .fromEnd n =>
    if n > 0 then
      (.error (.outOfBounds w.pos n.toNat w.len), w)
    else
      let m := (-n).toNat
      if m ≤ w.len then
        match set_position (w.len - m) w with
        | (.ok _, w') => (.ok w'.pos, w')
        | (.error e, w') => (.error e, w')
      else
        (.error (.outOfBounds w.pos m w.len), w)
  | .current n =>
    if n > 0 then
      match set_position (w.pos + n.toNat) w with
      | (.ok _, w') => (.ok w'.pos, w')
      | (.error e, w') => (.error e, w')
    else
      let m := (-n).toNat
      if m ≤ w.pos then
        match set_position (w.pos - m) w with
        | (.ok _, w') => (.ok w'.pos, w')
        | (.error e, w') => (.error e, w')
      else
        (.error (.outOfBounds w.pos m w.len), w)

/-- src/writer/mod.rs `ByteWriter::check_bounds`. -/
def check_bounds (w : ByteWriter) (size : Nat) : Except Error Unit :=
  if w.pos + size ≤ w.len then
    .ok ()
  else
    .error (.insufficientData size (w.len - w.position))

/-- src/writer/mod.rs `ByteWriter::write_exact`: copy the bytes over the
buffer at the current position and advance; the buffer never grows. -/
def write_exact (bs : List Nat) : WM Unit := fun w =>
  match w.check_bounds bs.length with
  | .ok _ =>
    (.ok (), { w with
      data := w.data.take w.pos ++ bs ++ w.data.drop (w.pos + bs.length),
      pos := w.pos + bs.length })
  | .error e => (.error e, w)

/-- src/writer/writable.rs `impl_number!` (`impl Writable for uN`): convert
with the writer's endianness, then `write_exact`. -/
def write_uint (nl : Bool) (w : Nat) (v : Nat) : WM Unit := fun s =>
  write_exact (uint_bytes (s.endian.isLE nl) w v) s

/-- src/writer/writable.rs `impl_number!` for the signed primitives. -/
def write_int (nl : Bool) (w : Nat) (v : Int) : WM Unit := fun s =>
  write_exact (int_bytes (s.endian.isLE nl) w v) s

/-- src/writer/writable.rs `impl Writable for bool`: one byte, `0x01` for
`true` and `0x00` for `false`. -/
def write_bool (b : Bool) : WM Unit := fun s =>
  match b with
  | true => write_exact [1] s
  | false => write_exact [0] s

/-- src/writer/writable.rs `impl Writable for Vec<T>`, element loop. -/
def write_elems {α : Type} (we : α → WM Unit) : List α → WM Unit
  | [] => fun s => (.ok (), s)
  | x :: xs => fun s =>
    match we x s with
    | (.ok _, s') => write_elems we xs s'
    | (.error e, s') => (.error e, s')

/-- src/writer/writable.rs `impl Writable for Vec<T>`: reject lengths above
`u32::MAX`, then write the `u32` length prefix and the elements in order. -/
def write_vec {α : Type} (nl : Bool) (we : α → WM Unit) (l : List α) : WM Unit := fun s =>
  if l.length > 4294967295 then
    (.error .notValid, s)
  else
    match write_uint nl 4 l.length s with
    | (.ok _, s') => write_elems we l s'
    | (.error e, s') => (.error e, s')

/-- `write_vec` at an unsigned element type of width `w`. -/
def write_vec_uint (nl : Bool) (w : Nat) (l : List Nat) : WM Unit :=
  write_vec nl (write_uint nl w) l

/-- src/writer/writable.rs `impl Writable for CString`: a `CString` value is
its content bytes (`count_bytes` many, none of them zero); writing rejects
contents longer than `u32::MAX - 1` and otherwise emits the content followed
by the nul terminator (`as_bytes_with_nul`). -/
def write_cstring (content : List Nat) : WM Unit := fun s =>
  if content.length > 4294967294 then
    (.error .notValid, s)
  else
    write_exact (content ++ [0]) s

/-- src/writer/mod.rs `impl Write for ByteWriter`: the stream-adapter write,
truncating to the remaining capacity instead of failing. -/
def io_write (buf : List Nat) (w : ByteWriter) : ByteWriter :=
  if w.rest_len = 0 then w
  else
    let to_write := min w.rest_len buf.length
    { w with
      data := w.data.take w.pos ++ buf.take to_write ++ w.data.drop (w.pos + to_write),
      pos := w.pos + to_write }

end ByteWriter

/-- The public operations of a `ByteReader`, as an inventory for quantifying
over arbitrary call sequences. -/
inductive ROp where
  | set_position (p : Nat) : ROp
  | skip (n : Nat) : ROp
  | skip_force (n : Nat) : ROp
  | rewind (n : Nat) : ROp
  | rewind_force (n : Nat) : ROp
  | reset : ROp
  | seek (s : SeekFrom) : ROp
  | align_up_dynamic (a : Nat) : ROp
  | set_endian (e : Endian) : ROp
  | peek_bytes (n : Nat) : ROp
  | read_bytes (n : Nat) : ROp
  | peek_ascii (n : Nat) : ROp
  | read_ascii (n : Nat) : ROp
  | read_uint (w : Nat) : ROp
  | read_int (w : Nat) : ROp
  | read_bool : ROp
  | read_vec_uint (w : Nat) : ROp
  | read_cstring : ROp
  | io_read (n : Nat) : ROp
deriving DecidableEq, Repr

/-- State reached by a `ByteReader` after one operation; as in Rust, the
cursor remains usable after an `Err` return, in the state the failing call
left it in. -/
def runROp (nl : Bool) : ROp → ByteReader → ByteReader
  | .set_position p, r => (ByteReader.set_position p r).2
  | .skip n, r => (ByteReader.skip n r).2
  | .skip_force n, r => ByteReader.skip_force n r
  | .rewind n, r => (ByteReader.rewind n r).2
  | .rewind_force n, r => ByteReader.rewind_force n r
  | .reset, r => ByteReader.reset r
  | .seek s, r => (ByteReader.seek s r).2
  | .align_up_dynamic a, r => (ByteReader.align_up_dynamic a r).2
  | .set_endian e, r => ByteReader.set_endian e r
  | .peek_bytes n, r => (ByteReader.peek_exact n r).2
  | .read_bytes n, r => (ByteReader.read_exact n r).2
  | .peek_ascii n, r => (ByteReader.peek_ascii n r).2
  | .read_ascii n, r => (ByteReader.read_ascii n r).2
  | .read_uint w, r => (ByteReader.read_uint nl w r).2
  | .read_int w, r => (ByteReader.read_int nl w r).2
  | .read_bool, r => (ByteReader.read_bool nl r).2
  | .read_vec_uint w, r => (ByteReader.read_vec_uint nl w r).2
  | .read_cstring, r => (ByteReader.read_cstring nl r).2
  | .io_read n, r => ByteReader.io_read n r

/-- State reached after a whole sequence of reader operations. -/
def runROps (nl : Bool) (ops : List ROp) (r : ByteReader) : ByteReader :=
  ops.foldl (fun st op => runROp nl op st) r

/-- The public operations of a `ByteWriter`. -/
inductive WOp where
  | set_position (p : Nat) : WOp
  | skip (n : Nat) : WOp
  | skip_force (n : Nat) : WOp
  | rewind (n : Nat) : WOp
  | rewind_force (n : Nat) : WOp
  | reset : WOp
  | seek (s : SeekFrom) : WOp
  | set_endian (e : Endian) : WOp
  | write_bytes (bs : List Nat) : WOp
  | write_uint (w : Nat) (v : Nat) : WOp
  | write_int (w : Nat) (v : Int) : WOp
  | write_bool (b : Bool) : WOp
  | write_vec_uint (w : Nat) (l : List Nat) : WOp
  | write_cstring (cs : List Nat) : WOp
  | io_write (bs : List Nat) : WOp
deriving DecidableEq, Repr

/-- State reached by a `ByteWriter` after one operation. -/
def runWOp (nl : Bool) : WOp → ByteWriter → ByteWriter
  | .set_position p, w => (ByteWriter.set_position p w).2
  | .skip n, w => (ByteWriter.skip n w).2
  | .skip_force n, w => ByteWriter.skip_force n w
  | .rewind n, w => (ByteWriter.rewind n w).2
  | .rewind_force n, w => ByteWriter.rewind_force n w
  | .reset, w => ByteWriter.reset w
  | .seek s, w => (ByteWriter.seek s w).2
  | .set_endian e, w => ByteWriter.set_endian e w
  | .write_bytes bs, w => (ByteWriter.write_exact bs w).2
  | .write_uint wd v, w => (ByteWriter.write_uint nl wd v w).2
  | .write_int wd v, w => (ByteWriter.write_int nl wd v w).2
  | .write_bool b, w => (ByteWriter.write_bool b w).2
  | .write_vec_uint wd l, w => (ByteWriter.write_vec_uint nl wd l w).2
  | .write_cstring cs, w => (ByteWriter.write_cstring cs w).2
  | .io_write bs, w => ByteWriter.io_write bs w

/-- State reached after a whole sequence of writer operations. -/
def runWOps (nl : Bool) (ops : List WOp) (w : ByteWriter) : ByteWriter :=
  ops.foldl (fun st op => runWOp nl op st) w

/-- Stability of a reader method: it never touches the underlying buffer and
it keeps the position invariant `pos ≤ len`. -/
def RStable {α : Type} (m : RM α) : Prop :=
  ∀ r : ByteReader, ((m r).2).data = r.data ∧
    (r.pos ≤ r.data.length → ((m r).2).pos ≤ r.data.length)

/-- Stability of a writer method: it never changes the buffer length and it
keeps the position invariant `pos ≤ len`. -/
def WStable {α : Type} (m : WM α) : Prop :=
  ∀ w : ByteWriter, ((m w).2).data.length = w.data.length ∧
    (w.pos ≤ w.data.length → ((m w).2).pos ≤ w.data.length)

/-! ### Stability of the reader operations -/

theorem rstable_set_position (p : Nat) : RStable (ByteReader.set_position p) := by
  intro r
  simp only [ByteReader.set_position, ByteReader.len]
  split
  · exact ⟨rfl, fun h => h⟩
  · refine ⟨rfl, fun _ => ?_⟩
    show p ≤ r.data.length
    omega

theorem rstable_skip (n : Nat) : RStable (ByteReader.skip n) := by
  intro r
  simp only [ByteReader.skip, ByteReader.len]
  split
  · exact ⟨rfl, fun _ => by assumption⟩
  · exact ⟨rfl, fun h => h⟩

theorem rstable_rewind (n : Nat) : RStable (ByteReader.rewind n) := by
  intro r
  simp only [ByteReader.rewind, ByteReader.len]
  split
  · refine ⟨rfl, fun h => ?_⟩
    show r.pos - n ≤ r.data.length
    omega
  · exact ⟨rfl, fun h => h⟩

theorem seek_wrap_snd (x : Except Error Unit × ByteReader) :
    (match x with
      | (.ok _, r') => ((.ok r'.pos : Except Error Nat), r')
      | (.error e, r') => (.error e, r')).2 = x.2 := by
  rcases x with ⟨res, r⟩
  cases res <;> rfl

theorem rstable_seek (s : SeekFrom) : RStable (ByteReader.seek s) := by
  intro r
  rcases s with n | n | n
  · have h := rstable_set_position n r
    simp only [ByteReader.seek]
    rcases hx : ByteReader.set_position n r with ⟨res, r2⟩
    rw [hx] at h
    cases res <;> exact h
  · simp only [ByteReader.seek]
    split
    · exact ⟨rfl, fun h => h⟩
    · split
      · have h := rstable_set_position (r.len - (-n).toNat) r
        rcases hx : ByteReader.set_position (r.len - (-n).toNat) r with ⟨res, r2⟩
        rw [hx] at h
        cases res <;> exact h
      · exact ⟨rfl, fun h => h⟩
  · simp only [ByteReader.seek]
    split
    · have h := rstable_set_position (r.pos + n.toNat) r
      rcases hx : ByteReader.set_position (r.pos + n.toNat) r with ⟨res, r2⟩
      rw [hx] at h
      cases res <;> exact h
    · split
      · have h := rstable_set_position (r.pos - (-n).toNat) r
        rcases hx : ByteReader.set_position (r.pos - (-n).toNat) r with ⟨res, r2⟩
        rw [hx] at h
        cases res <;> exact h
      · exact ⟨rfl, fun h => h⟩

theorem rstable_align_up_dynamic (a : Nat) : RStable (ByteReader.align_up_dynamic a) := by
  intro r
  simp only [ByteReader.align_up_dynamic]
  split
  · exact ⟨rfl, fun h => h⟩
  · exact rstable_set_position _ r

theorem rstable_peek_exact (n : Nat) : RStable (ByteReader.peek_exact n) := by
  intro r
  simp only [ByteReader.peek_exact, ByteReader.check_bounds, ByteReader.len]
  split
  · exact ⟨rfl, fun h => by assumption⟩
  · exact ⟨rfl, fun h => h⟩

theorem rstable_read_exact (n : Nat) : RStable (ByteReader.read_exact n) := by
  intro r
  simp only [ByteReader.read_exact, ByteReader.check_bounds, ByteReader.len]
  split
  · rename_i u heq
    refine ⟨rfl, fun _ => ?_⟩
    show r.pos + n ≤ r.data.length
    split at heq
    · assumption
    · simp at heq
  · exact ⟨rfl, fun h => h⟩

theorem rstep_trans {r r2 r3 : ByteReader}
    (h1 : r2.data = r.data ∧ (r.pos ≤ r.data.length → r2.pos ≤ r.data.length))
    (h2 : r3.data = r2.data ∧ (r2.pos ≤ r2.data.length → r3.pos ≤ r2.data.length)) :
    r3.data = r.data ∧ (r.pos ≤ r.data.length → r3.pos ≤ r.data.length) := by
  obtain ⟨d1, p1⟩ := h1
  obtain ⟨d2, p2⟩ := h2
  refine ⟨d2.trans d1, fun hwf => ?_⟩
  have a := p1 hwf
  have b := p2 (by rw [d1]; exact a)
  rwa [d1] at b

theorem peek_exact_of_le {r : ByteReader} {n : Nat} (h : r.pos + n ≤ r.data.length) :
    ByteReader.peek_exact n r = (.ok ((r.data.drop r.pos).take n), r) := by
  simp [ByteReader.peek_exact, ByteReader.check_bounds, ByteReader.len, h]

theorem peek_exact_of_gt {r : ByteReader} {n : Nat} (h : r.data.length < r.pos + n) :
    ByteReader.peek_exact n r =
      (.error (.insufficientData n (r.data.length - r.pos)), r) := by
  simp [ByteReader.peek_exact, ByteReader.check_bounds, ByteReader.len,
    ByteReader.position, Nat.not_le.mpr h]

theorem read_exact_of_le {r : ByteReader} {n : Nat} (h : r.pos + n ≤ r.data.length) :
    ByteReader.read_exact n r =
      (.ok ((r.data.drop r.pos).take n), { r with pos := r.pos + n }) := by
  simp [ByteReader.read_exact, ByteReader.check_bounds, ByteReader.len, h]

theorem read_exact_of_gt {r : ByteReader} {n : Nat} (h : r.data.length < r.pos + n) :
    ByteReader.read_exact n r =
      (.error (.insufficientData n (r.data.length - r.pos)), r) := by
  simp [ByteReader.read_exact, ByteReader.check_bounds, ByteReader.len,
    ByteReader.position, Nat.not_le.mpr h]

theorem read_uint_of_le {r : ByteReader} {nl : Bool} {w : Nat}
    (h : r.pos + w ≤ r.data.length) :
    ByteReader.read_uint nl w r =
      (.ok (uint_of_bytes (r.endian.isLE nl) ((r.data.drop r.pos).take w)),
        { r with pos := r.pos + w }) := by
  simp [ByteReader.read_uint, read_exact_of_le h]

theorem read_uint_of_gt {r : ByteReader} {nl : Bool} {w : Nat}
    (h : r.data.length < r.pos + w) :
    ByteReader.read_uint nl w r =
      (.error (.insufficientData w (r.data.length - r.pos)), r) := by
  simp [ByteReader.read_uint, read_exact_of_gt h]

theorem rstable_read_uint (nl : Bool) (w : Nat) : RStable (ByteReader.read_uint nl w) := by
  intro r
  have h := rstable_read_exact w r
  simp only [ByteReader.read_uint]
  rcases hx : ByteReader.read_exact w r with ⟨res, r2⟩
  rw [hx] at h
  cases res <;> exact h

theorem rstable_read_int (nl : Bool) (w : Nat) : RStable (ByteReader.read_int nl w) := by
  intro r
  have h := rstable_read_exact w r
  simp only [ByteReader.read_int]
  rcases hx : ByteReader.read_exact w r with ⟨res, r2⟩
  rw [hx] at h
  cases res <;> exact h

theorem rstable_read_bool (nl : Bool) : RStable (ByteReader.read_bool nl) := by
  intro r
  have h := rstable_read_uint nl 1 r
  simp only [ByteReader.read_bool]
  rcases hx : ByteReader.read_uint nl 1 r with ⟨res, r2⟩
  rw [hx] at h
  cases res with
  | error e => exact h
  | ok b =>
    match b with
    | 0 => exact h
    | 1 => exact h
    | b + 2 => exact h

theorem rstable_peek_ascii (n : Nat) : RStable (ByteReader.peek_ascii n) := by
  intro r
  have h := rstable_peek_exact n r
  rcases hx : ByteReader.peek_exact n r with ⟨res, r2⟩
  rw [hx] at h
  cases res with
  | error e =>
    simp only [ByteReader.peek_ascii, hx]
    exact h
  | ok bs =>
    simp only [ByteReader.peek_ascii, hx]
    split
    · split <;> exact h
    · exact h

theorem rstable_read_ascii (n : Nat) : RStable (ByteReader.read_ascii n) := by
  intro r
  have h := rstable_read_exact n r
  rcases hx : ByteReader.read_exact n r with ⟨res, r2⟩
  rw [hx] at h
  cases res with
  | error e =>
    simp only [ByteReader.read_ascii, hx]
    exact h
  | ok bs =>
    simp only [ByteReader.read_ascii, hx]
    split
    · split <;> exact h
    · exact h

theorem rstable_read_elems {α : Type} (re : RM α) (hre : RStable re) (n : Nat) :
    RStable (ByteReader.read_elems re n) := by
  induction n with
  | zero => intro r; exact ⟨rfl, fun h => h⟩
  | succ k ih =>
    intro r
    have h1 := hre r
    rcases hx : re r with ⟨res, r2⟩
    rw [hx] at h1
    cases res with
    | error e =>
      simp only [ByteReader.read_elems, hx]
      exact h1
    | ok x =>
      have h2 := ih r2
      rcases hy : ByteReader.read_elems re k r2 with ⟨res2, r3⟩
      rw [hy] at h2
      cases res2 with
      | error e =>
        simp only [ByteReader.read_elems, hx, hy]
        exact rstep_trans h1 h2
      | ok xs =>
        simp only [ByteReader.read_elems, hx, hy]
        exact rstep_trans h1 h2

theorem rstable_read_vec {α : Type} (nl : Bool) (re : RM α) (hre : RStable re) :
    RStable (ByteReader.read_vec nl re) := by
  intro r
  have h1 := rstable_read_uint nl 4 r
  rcases hx : ByteReader.read_uint nl 4 r with ⟨res, r2⟩
  rw [hx] at h1
  cases res with
  | error e =>
    simp only [ByteReader.read_vec, hx]
    exact h1
  | ok n =>
    simp only [ByteReader.read_vec, hx]
    exact rstep_trans h1 (rstable_read_elems re hre n r2)

theorem read_cstring_loop_stable_aux (nl : Bool) :
    ∀ (fuel : Nat) (acc : List Nat) (r : ByteReader), r.data.length - r.pos = fuel →
      (ByteReader.read_cstring_loop nl acc r).2.data = r.data ∧
      (r.pos ≤ r.data.length → (ByteReader.read_cstring_loop nl acc r).2.pos ≤ r.data.length) := by
  intro fuel
  induction fuel with
  | zero =>
    intro acc r hf
    rw [ByteReader.read_cstring_loop]
    split
    · rename_i b r2 h
      rw [read_uint_of_gt (show r.data.length < r.pos + 1 by omega)] at h
      simp at h
    · rename_i e r2 h
      rw [read_uint_of_gt (show r.data.length < r.pos + 1 by omega)] at h
      simp only [Prod.mk.injEq, Except.error.injEq] at h
      obtain ⟨-, hr2⟩ := h
      subst hr2
      exact ⟨rfl, fun hh => hh⟩
  | succ k ih =>
    intro acc r hf
    have hle : r.pos + 1 ≤ r.data.length := by omega
    rw [ByteReader.read_cstring_loop]
    split
    · rename_i b r2 h
      rw [read_uint_of_le hle] at h
      simp only [Prod.mk.injEq, Except.ok.injEq] at h
      obtain ⟨hb, hr2⟩ := h
      subst hr2
      split
      · exact ⟨rfl, fun _ => hle⟩
      · have h2 := ih (acc ++ [b]) { r with pos := r.pos + 1 } (by simp; omega)
        exact ⟨h2.1, fun _ => h2.2 hle⟩
    · rename_i e r2 h
      rw [read_uint_of_le hle] at h
      simp at h

theorem rstable_read_cstring (nl : Bool) : RStable (ByteReader.read_cstring nl) := by
  intro r
  have h := read_cstring_loop_stable_aux nl (r.data.length - r.pos) [] r rfl
  rcases hx : ByteReader.read_cstring_loop nl [] r with ⟨res, r2⟩
  rw [hx] at h
  cases res with
  | error e =>
    simp only [ByteReader.read_cstring, hx]
    exact h
  | ok v =>
    simp only [ByteReader.read_cstring, hx]
    cases hv : ByteReader.from_vec_with_nul v with
    | none =>
      simp only [hv]
      exact h
    | some content =>
      simp only [hv]
      exact h

/-! ### Stability of the writer operations -/

theorem wstep_trans {w w2 w3 : ByteWriter}
    (h1 : w2.data.length = w.data.length ∧ (w.pos ≤ w.data.length → w2.pos ≤ w.data.length))
    (h2 : w3.data.length = w2.data.length ∧ (w2.pos ≤ w2.data.length → w3.pos ≤ w2.data.length)) :
    w3.data.length = w.data.length ∧ (w.pos ≤ w.data.length → w3.pos ≤ w.data.length) := by
  obtain ⟨d1, p1⟩ := h1
  obtain ⟨d2, p2⟩ := h2
  refine ⟨d2.trans d1, fun hwf => ?_⟩
  have a := p1 hwf
  have b := p2 (by rw [d1]; exact a)
  rwa [d1] at b

theorem wstable_set_position (p : Nat) : WStable (ByteWriter.set_position p) := by
  intro w
  simp only [ByteWriter.set_position, ByteWriter.len]
  split
  · exact ⟨rfl, fun h => h⟩
  · refine ⟨rfl, fun _ => ?_⟩
    show p ≤ w.data.length
    omega

theorem wstable_skip (n : Nat) : WStable (ByteWriter.skip n) := by
  intro w
  simp only [ByteWriter.skip, ByteWriter.len]
  split
  · exact ⟨rfl, fun _ => by assumption⟩
  · exact ⟨rfl, fun h => h⟩

theorem wstable_rewind (n : Nat) : WStable (ByteWriter.rewind n) := by
  intro w
  simp only [ByteWriter.rewind, ByteWriter.len]
  split
  · refine ⟨rfl, fun h => ?_⟩
    show w.pos - n ≤ w.data.length
    omega
  · exact ⟨rfl, fun h => h⟩

theorem wstable_seek (s : SeekFrom) : WStable (ByteWriter.seek s) := by
  intro w
  rcases s with n | n | n
  · have h := wstable_set_position n w
    simp only [ByteWriter.seek]
    rcases hx : ByteWriter.set_position n w with ⟨res, w2⟩
    rw [hx] at h
    cases res <;> exact h
  · simp only [ByteWriter.seek]
    split
    · exact ⟨rfl, fun h => h⟩
    · split
      · have h := wstable_set_position (w.len - (-n).toNat) w
        rcases hx : ByteWriter.set_position (w.len - (-n).toNat) w with ⟨res, w2⟩
        rw [hx] at h
        cases res <;> exact h
      · exact ⟨rfl, fun h => h⟩
  · simp only [ByteWriter.seek]
    split
    · have h := wstable_set_position (w.pos + n.toNat) w
      rcases hx : ByteWriter.set_position (w.pos + n.toNat) w with ⟨res, w2⟩
      rw [hx] at h
      cases res <;> exact h
    · split
      · have h := wstable_set_position (w.pos - (-n).toNat) w
        rcases hx : ByteWriter.set_position (w.pos - (-n).toNat) w with ⟨res, w2⟩
        rw [hx] at h
        cases res <;> exact h
      · exact ⟨rfl, fun h => h⟩

theorem wstable_write_exact (bs : List Nat) : WStable (ByteWriter.write_exact bs) := by
  intro w
  simp only [ByteWriter.write_exact, ByteWriter.check_bounds, ByteWriter.len]
  split
  · rename_i u heq
    have hb : w.pos + bs.length ≤ w.data.length := by
      split at heq
      · assumption
      · simp at heq
    constructor
    · show (w.data.take w.pos ++ bs ++ w.data.drop (w.pos + bs.length)).length = w.data.length
      simp only [List.length_append, List.length_take, List.length_drop]
      omega
    · intro _
      show w.pos + bs.length ≤ w.data.length
      exact hb
  · exact ⟨rfl, fun h => h⟩

theorem wstable_write_uint (nl : Bool) (wd v : Nat) : WStable (ByteWriter.write_uint nl wd v) := by
  intro w
  exact wstable_write_exact _ w

theorem wstable_write_int (nl : Bool) (wd : Nat) (v : Int) :
    WStable (ByteWriter.write_int nl wd v) := by
  intro w
  exact wstable_write_exact _ w

theorem wstable_write_bool (b : Bool) : WStable (ByteWriter.write_bool b) := by
  intro w
  cases b <;> exact wstable_write_exact _ w

theorem wstable_write_elems {α : Type} (we : α → WM Unit) (hwe : ∀ x, WStable (we x)) :
    ∀ l : List α, WStable (ByteWriter.write_elems we l) := by
  intro l
  induction l with
  | nil => intro w; exact ⟨rfl, fun h => h⟩
  | cons x xs ih =>
    intro w
    have h1 := hwe x w
    rcases hx : we x w with ⟨res, w2⟩
    rw [hx] at h1
    cases res with
    | error e =>
      simp only [ByteWriter.write_elems, hx]
      exact h1
    | ok u =>
      simp only [ByteWriter.write_elems, hx]
      exact wstep_trans h1 (ih w2)

theorem wstable_write_vec {α : Type} (nl : Bool) (we : α → WM Unit)
    (hwe : ∀ x, WStable (we x)) (l : List α) : WStable (ByteWriter.write_vec nl we l) := by
  intro w
  simp only [ByteWriter.write_vec]
  split
  · exact ⟨rfl, fun h => h⟩
  · have h1 := wstable_write_uint nl 4 l.length w
    rcases hx : ByteWriter.write_uint nl 4 l.length w with ⟨res, w2⟩
    rw [hx] at h1
    cases res with
    | error e =>
      simp only [hx]
      exact h1
    | ok u =>
      simp only [hx]
      exact wstep_trans h1 (wstable_write_elems we hwe l w2)

theorem wstable_write_cstring (cs : List Nat) : WStable (ByteWriter.write_cstring cs) := by
  intro w
  simp only [ByteWriter.write_cstring]
  split
  · exact ⟨rfl, fun h => h⟩
  · exact wstable_write_exact _ w

/-! ### Invariant preservation for arbitrary operation sequences -/

theorem runROp_stable (nl : Bool) (op : ROp) (r : ByteReader) :
    (runROp nl op r).data = r.data ∧
    (r.pos ≤ r.data.length → (runROp nl op r).pos ≤ r.data.length) := by
  cases op with
  | set_position p => exact rstable_set_position p r
  | skip n => exact rstable_skip n r
  | skip_force n =>
    refine ⟨rfl, fun h => ?_⟩
    show min (r.pos + n) r.data.length ≤ r.data.length
    omega
  | rewind n => exact rstable_rewind n r
  | rewind_force n =>
    refine ⟨rfl, fun h => ?_⟩
    show r.pos - n ≤ r.data.length
    omega
  | reset =>
    refine ⟨rfl, fun h => ?_⟩
    show 0 ≤ r.data.length
    omega
  | seek s => exact rstable_seek s r
  | align_up_dynamic a => exact rstable_align_up_dynamic a r
  | set_endian e => exact ⟨rfl, fun h => h⟩
  | peek_bytes n => exact rstable_peek_exact n r
  | read_bytes n => exact rstable_read_exact n r
  | peek_ascii n => exact rstable_peek_ascii n r
  | read_ascii n => exact rstable_read_ascii n r
  | read_uint w => exact rstable_read_uint nl w r
  | read_int w => exact rstable_read_int nl w r
  | read_bool => exact rstable_read_bool nl r
  | read_vec_uint w => exact rstable_read_vec nl _ (rstable_read_uint nl w) r
  | read_cstring => exact rstable_read_cstring nl r
  | io_read n =>
    simp only [runROp, ByteReader.io_read, ByteReader.rest_len, ByteReader.len,
      ByteReader.position]
    split
    · exact ⟨rfl, fun h => h⟩
    · refine ⟨rfl, fun h => ?_⟩
      show r.pos + min (r.data.length - r.pos) n ≤ r.data.length
      omega

theorem runROps_stable (nl : Bool) (ops : List ROp) (r : ByteReader) :
    (runROps nl ops r).data = r.data ∧
    (r.pos ≤ r.data.length → (runROps nl ops r).pos ≤ r.data.length) := by
  induction ops generalizing r with
  | nil => exact ⟨rfl, fun h => h⟩
  | cons op ops ih =>
    have h1 := runROp_stable nl op r
    have h2 := ih (runROp nl op r)
    exact rstep_trans h1 h2

theorem runWOp_stable (nl : Bool) (op : WOp) (w : ByteWriter) :
    (runWOp nl op w).data.length = w.data.length ∧
    (w.pos ≤ w.data.length → (runWOp nl op w).pos ≤ w.data.length) := by
  cases op with
  | set_position p => exact wstable_set_position p w
  | skip n => exact wstable_skip n w
  | skip_force n =>
    refine ⟨rfl, fun h => ?_⟩
    show min (w.pos + n) w.data.length ≤ w.data.length
    omega
  | rewind n => exact wstable_rewind n w
  | rewind_force n =>
    refine ⟨rfl, fun h => ?_⟩
    show w.pos - n ≤ w.data.length
    omega
  | reset =>
    refine ⟨rfl, fun h => ?_⟩
    show 0 ≤ w.data.length
    omega
  | seek s => exact wstable_seek s w
  | set_endian e => exact ⟨rfl, fun h => h⟩
  | write_bytes bs => exact wstable_write_exact bs w
  | write_uint wd v => exact wstable_write_uint nl wd v w
  | write_int wd v => exact wstable_write_int nl wd v w
  | write_bool b => exact wstable_write_bool b w
  | write_vec_uint wd l => exact wstable_write_vec nl _ (wstable_write_uint nl wd) l w
  | write_cstring cs => exact wstable_write_cstring cs w
  | io_write bs =>
    simp only [runWOp, ByteWriter.io_write, ByteWriter.rest_len, ByteWriter.len,
      ByteWriter.position]
    split
    · exact ⟨rfl, fun h => h⟩
    · constructor
      · show (w.data.take w.pos ++ bs.take (min (w.data.length - w.pos) bs.length) ++
          w.data.drop (w.pos + min (w.data.length - w.pos) bs.length)).length = w.data.length
        simp only [List.length_append, List.length_take, List.length_drop]
        omega
      · intro h
        show w.pos + min (w.data.length - w.pos) bs.length ≤ w.data.length
        omega

theorem runWOps_stable (nl : Bool) (ops : List WOp) (w : ByteWriter) :
    (runWOps nl ops w).data.length = w.data.length ∧
    (w.pos ≤ w.data.length → (runWOps nl ops w).pos ≤ w.data.length) := by
  induction ops generalizing w with
  | nil => exact ⟨rfl, fun h => h⟩
  | cons op ops ih =>
    have h1 := runWOp_stable nl op w
    have h2 := ih (runWOp nl op w)
    exact wstep_trans h1 h2

/-! ### Failed navigation leaves the position untouched -/

theorem set_position_error_eq {p : Nat} {r r' : ByteReader} {e : Error}
    (h : ByteReader.set_position p r = (.error e, r')) : r' = r := by
  simp only [ByteReader.set_position] at h
  split at h
  · simp only [Prod.mk.injEq] at h
    exact h.2.symm
  · simp at h

theorem skip_error_eq {n : Nat} {r r' : ByteReader} {e : Error}
    (h : ByteReader.skip n r = (.error e, r')) : r' = r := by
  simp only [ByteReader.skip] at h
  split at h
  · simp at h
  · simp only [Prod.mk.injEq] at h
    exact h.2.symm

theorem rewind_error_eq {n : Nat} {r r' : ByteReader} {e : Error}
    (h : ByteReader.rewind n r = (.error e, r')) : r' = r := by
  simp only [ByteReader.rewind] at h
  split at h
  · simp at h
  · simp only [Prod.mk.injEq] at h
    exact h.2.symm

theorem seek_error_eq {s : SeekFrom} {r r' : ByteReader} {e : Error}
    (h : ByteReader.seek s r = (.error e, r')) : r' = r := by
  rcases s with n | n | n
  · simp only [ByteReader.seek] at h
    rcases hx : ByteReader.set_position n r with ⟨res, r2⟩
    rw [hx] at h
    cases res with
    | error e2 =>
      simp only [Prod.mk.injEq] at h
      exact h.2.symm.trans (set_position_error_eq hx)
    | ok u => simp at h
  · simp only [ByteReader.seek] at h
    split at h
    · simp only [Prod.mk.injEq] at h
      exact h.2.symm
    · split at h
      · rcases hx : ByteReader.set_position (r.len - (-n).toNat) r with ⟨res, r2⟩
        rw [hx] at h
        cases res with
        | error e2 =>
          simp only [Prod.mk.injEq] at h
          exact h.2.symm.trans (set_position_error_eq hx)
        | ok u => simp at h
      · simp only [Prod.mk.injEq] at h
        exact h.2.symm
  · simp only [ByteReader.seek] at h
    split at h
    · rcases hx : ByteReader.set_position (r.pos + n.toNat) r with ⟨res, r2⟩
      rw [hx] at h
      cases res with
      | error e2 =>
        simp only [Prod.mk.injEq] at h
        exact h.2.symm.trans (set_position_error_eq hx)
      | ok u => simp at h
    · split at h
      · rcases hx : ByteReader.set_position (r.pos - (-n).toNat) r with ⟨res, r2⟩
        rw [hx] at h
        cases res with
        | error e2 =>
          simp only [Prod.mk.injEq] at h
          exact h.2.symm.trans (set_position_error_eq hx)
        | ok u => simp at h
      · simp only [Prod.mk.injEq] at h
        exact h.2.symm

theorem wset_position_error_eq {p : Nat} {w w' : ByteWriter} {e : Error}
    (h : ByteWriter.set_position p w = (.error e, w')) : w' = w := by
  simp only [ByteWriter.set_position] at h
  split at h
  · simp only [Prod.mk.injEq] at h
    exact h.2.symm
  · simp at h

theorem wskip_error_eq {n : Nat} {w w' : ByteWriter} {e : Error}
    (h : ByteWriter.skip n w = (.error e, w')) : w' = w := by
  simp only [ByteWriter.skip] at h
  split at h
  · simp at h
  · simp only [Prod.mk.injEq] at h
    exact h.2.symm

theorem wrewind_error_eq {n : Nat} {w w' : ByteWriter} {e : Error}
    (h : ByteWriter.rewind n w = (.error e, w')) : w' = w := by
  simp only [ByteWriter.rewind] at h
  split at h
  · simp at h
  · simp only [Prod.mk.injEq] at h
    exact h.2.symm

theorem wseek_error_eq {s : SeekFrom} {w w' : ByteWriter} {e : Error}
    (h : ByteWriter.seek s w = (.error e, w')) : w' = w := by
  rcases s with n | n | n
  · simp only [ByteWriter.seek] at h
    rcases hx : ByteWriter.set_position n w with ⟨res, w2⟩
    rw [hx] at h
    cases res with
    | error e2 =>
      simp only [Prod.mk.injEq] at h
      exact h.2.symm.trans (wset_position_error_eq hx)
    | ok u => simp at h
  · simp only [ByteWriter.seek] at h
    split at h
    · simp only [Prod.mk.injEq] at h
      exact h.2.symm
    · split at h
      · rcases hx : ByteWriter.set_position (w.len - (-n).toNat) w with ⟨res, w2⟩
        rw [hx] at h
        cases res with
        | error e2 =>
          simp only [Prod.mk.injEq] at h
          exact h.2.symm.trans (wset_position_error_eq hx)
        | ok u => simp at h
      · simp only [Prod.mk.injEq] at h
        exact h.2.symm
  · simp only [ByteWriter.seek] at h
    split at h
    · rcases hx : ByteWriter.set_position (w.pos + n.toNat) w with ⟨res, w2⟩
      rw [hx] at h
      cases res with
      | error e2 =>
        simp only [Prod.mk.injEq] at h
        exact h.2.symm.trans (wset_position_error_eq hx)
      | ok u => simp at h
    · split at h
      · rcases hx : ByteWriter.set_position (w.pos - (-n).toNat) w with ⟨res, w2⟩
        rw [hx] at h
        cases res with
        | error e2 =>
          simp only [Prod.mk.injEq] at h
          exact h.2.symm.trans (wset_position_error_eq hx)
        | ok u => simp at h
      · simp only [Prod.mk.injEq] at h
        exact h.2.symm

/-- C1: For every cursor (ByteReader or ByteWriter) and every sequence of its
operations, including operations that return an error, the position stays
between 0 and `len()` before and after each operation (positions are `Nat`,
so `0 ≤ position` is inherent in the model), and a failed navigation
operation (`set_position`, `skip`, `rewind`, `seek`) leaves the position
exactly as it was — indeed the whole cursor state unchanged. -/
theorem c1_cursor_invariant :
    (∀ (nl : Bool) (ops : List ROp) (r : ByteReader), r.position ≤ r.len →
      (runROps nl ops r).position ≤ (runROps nl ops r).len) ∧
    (∀ (nl : Bool) (ops : List WOp) (w : ByteWriter), w.position ≤ w.len →
      (runWOps nl ops w).position ≤ (runWOps nl ops w).len) ∧
    (∀ (p : Nat) (r r' : ByteReader) (e : Error),
      ByteReader.set_position p r = (.error e, r') → r' = r) ∧
    (∀ (n : Nat) (r r' : ByteReader) (e : Error),
      ByteReader.skip n r = (.error e, r') → r' = r) ∧
    (∀ (n : Nat) (r r' : ByteReader) (e : Error),
      ByteReader.rewind n r = (.error e, r') → r' = r) ∧
    (∀ (s : SeekFrom) (r r' : ByteReader) (e : Error),
      ByteReader.seek s r = (.error e, r') → r' = r) ∧
    (∀ (p : Nat) (w w' : ByteWriter) (e : Error),
      ByteWriter.set_position p w = (.error e, w') → w' = w) ∧
    (∀ (n : Nat) (w w' : ByteWriter) (e : Error),
      ByteWriter.skip n w = (.error e, w') → w' = w) ∧
    (∀ (n : Nat) (w w' : ByteWriter) (e : Error),
      ByteWriter.rewind n w = (.error e, w') → w' = w) ∧
    (∀ (s : SeekFrom) (w w' : ByteWriter) (e : Error),
      ByteWriter.seek s w = (.error e, w') → w' = w) := by
  refine ⟨?_, ?_, ?_, ?_, ?_, ?_, ?_, ?_, ?_, ?_⟩
  · intro nl ops r h
    have hs := runROps_stable nl ops r
    show (runROps nl ops r).pos ≤ (runROps nl ops r).data.length
    rw [hs.1]
    exact hs.2 h
  · intro nl ops w h
    have hs := runWOps_stable nl ops w
    show (runWOps nl ops w).pos ≤ (runWOps nl ops w).data.length
    rw [hs.1]
    exact hs.2 h
  · intro p r r' e h
    exact set_position_error_eq h
  · intro n r r' e h
    exact skip_error_eq h
  · intro n r r' e h
    exact rewind_error_eq h
  · intro s r r' e h
    exact seek_error_eq h
  · intro p w w' e h
    exact wset_position_error_eq h
  · intro n w w' e h
    exact wskip_error_eq h
  · intro n w w' e h
    exact wrewind_error_eq h
  · intro s w w' e h
    exact wseek_error_eq h

/-- C1 witness: a concrete mixed sequence (successful and failing operations)
on a 3-byte reader, with the invariant hypothesis and conclusion evaluated. -/
theorem c1_cursor_invariant_witness :
    (ByteReader.mk [7, 1, 9] 0 Endian.little).position ≤
      (ByteReader.mk [7, 1, 9] 0 Endian.little).len ∧
    (runROps true
      [ROp.skip 2, ROp.read_bool, ROp.skip 5, ROp.seek (SeekFrom.fromEnd (-1)),
        ROp.read_bytes 9, ROp.rewind 1, ROp.set_position 3]
      (ByteReader.mk [7, 1, 9] 0 Endian.little)).position ≤
    (runROps true
      [ROp.skip 2, ROp.read_bool, ROp.skip 5, ROp.seek (SeekFrom.fromEnd (-1)),
        ROp.read_bytes 9, ROp.rewind 1, ROp.set_position 3]
      (ByteReader.mk [7, 1, 9] 0 Endian.little)).len :=
  ⟨by decide,
    c1_cursor_invariant.1 true
      [ROp.skip 2, ROp.read_bool, ROp.skip 5, ROp.seek (SeekFrom.fromEnd (-1)),
        ROp.read_bytes 9, ROp.rewind 1, ROp.set_position 3]
      (ByteReader.mk [7, 1, 9] 0 Endian.little) (by decide)⟩

/-- C3: `peek_exact n` returns exactly the `n` bytes at the current position
without moving it; `read_exact n` returns the same bytes and advances by `n`;
both fail with `InsufficientData` carrying `requested = n` and
`available = len - position` exactly when `n` exceeds the remaining bytes. -/
theorem c3_exact_primitives (r : ByteReader) (n : Nat) (hwf : r.pos ≤ r.data.length) :
    (n ≤ r.rest_len →
      ByteReader.peek_exact n r = (.ok ((r.data.drop r.pos).take n), r) ∧
      ByteReader.read_exact n r =
        (.ok ((r.data.drop r.pos).take n), { r with pos := r.pos + n }) ∧
      ((r.data.drop r.pos).take n).length = n) ∧
    (r.rest_len < n →
      ByteReader.peek_exact n r =
        (.error (.insufficientData n (r.len - r.position)), r) ∧
      ByteReader.read_exact n r =
        (.error (.insufficientData n (r.len - r.position)), r)) := by
  constructor
  · intro h
    have hle : r.pos + n ≤ r.data.length := by
      simp only [ByteReader.rest_len, ByteReader.len, ByteReader.position] at h
      omega
    refine ⟨peek_exact_of_le hle, read_exact_of_le hle, ?_⟩
    simp only [List.length_take, List.length_drop]
    omega
  · intro h
    have hgt : r.data.length < r.pos + n := by
      simp only [ByteReader.rest_len, ByteReader.len, ByteReader.position] at h
      omega
    exact ⟨peek_exact_of_gt hgt, read_exact_of_gt hgt⟩

/-- C3 witness: both the success case and the failure case evaluated on a
4-byte buffer at position 1. -/
theorem c3_exact_primitives_witness :
    ((ByteReader.mk [10, 20, 30, 40] 1 Endian.little).pos ≤
      (ByteReader.mk [10, 20, 30, 40] 1 Endian.little).data.length) ∧
    ((2 ≤ (ByteReader.mk [10, 20, 30, 40] 1 Endian.little).rest_len →
      ByteReader.peek_exact 2 (ByteReader.mk [10, 20, 30, 40] 1 Endian.little) =
        (.ok [20, 30], ByteReader.mk [10, 20, 30, 40] 1 Endian.little) ∧
      ByteReader.read_exact 2 (ByteReader.mk [10, 20, 30, 40] 1 Endian.little) =
        (.ok [20, 30], ByteReader.mk [10, 20, 30, 40] 3 Endian.little) ∧
      (([20, 30] : List Nat)).length = 2) ∧
    ((ByteReader.mk [10, 20, 30, 40] 1 Endian.little).rest_len < 2 →
      ByteReader.peek_exact 2 (ByteReader.mk [10, 20, 30, 40] 1 Endian.little) =
        (.error (.insufficientData 2 3), ByteReader.mk [10, 20, 30, 40] 1 Endian.little) ∧
      ByteReader.read_exact 2 (ByteReader.mk [10, 20, 30, 40] 1 Endian.little) =
        (.error (.insufficientData 2 3), ByteReader.mk [10, 20, 30, 40] 1 Endian.little))) :=
  ⟨by decide, c3_exact_primitives (ByteReader.mk [10, 20, 30, 40] 1 Endian.little) 2 (by decide)⟩

theorem set_position_error_inv {p : Nat} {r r' : ByteReader} {e : Error}
    (h : ByteReader.set_position p r = (.error e, r')) :
    e = .outOfBounds r.pos p r.len ∧ r' = r := by
  simp only [ByteReader.set_position] at h
  split at h
  · simp only [Prod.mk.injEq, Except.error.injEq] at h
    exact ⟨h.1.symm, h.2.symm⟩
  · simp at h

theorem seek_error_oob {s : SeekFrom} {r r' : ByteReader} {e : Error}
    (h : ByteReader.seek s r = (.error e, r')) : ∃ p q l, e = .outOfBounds p q l := by
  rcases s with n | n | n
  · simp only [ByteReader.seek] at h
    rcases hx : ByteReader.set_position n r with ⟨res, r2⟩
    rw [hx] at h
    cases res with
    | error e2 =>
      simp only [Prod.mk.injEq, Except.error.injEq] at h
      obtain ⟨he, -⟩ := h
      subst he
      exact ⟨r.pos, n, r.len, (set_position_error_inv hx).1⟩
    | ok u => simp at h
  · simp only [ByteReader.seek] at h
    split at h
    · simp only [Prod.mk.injEq, Except.error.injEq] at h
      exact ⟨r.pos, n.toNat, r.len, h.1.symm⟩
    · split at h
      · rcases hx : ByteReader.set_position (r.len - (-n).toNat) r with ⟨res, r2⟩
        rw [hx] at h
        cases res with
        | error e2 =>
          simp only [Prod.mk.injEq, Except.error.injEq] at h
          obtain ⟨he, -⟩ := h
          subst he
          exact ⟨r.pos, r.len - (-n).toNat, r.len, (set_position_error_inv hx).1⟩
        | ok u => simp at h
      · simp only [Prod.mk.injEq, Except.error.injEq] at h
        exact ⟨r.pos, (-n).toNat, r.len, h.1.symm⟩
  · simp only [ByteReader.seek] at h
    split at h
    · rcases hx : ByteReader.set_position (r.pos + n.toNat) r with ⟨res, r2⟩
      rw [hx] at h
      cases res with
      | error e2 =>
        simp only [Prod.mk.injEq, Except.error.injEq] at h
        obtain ⟨he, -⟩ := h
        subst he
        exact ⟨r.pos, r.pos + n.toNat, r.len, (set_position_error_inv hx).1⟩
      | ok u => simp at h
    · split at h
      · rcases hx : ByteReader.set_position (r.pos - (-n).toNat) r with ⟨res, r2⟩
        rw [hx] at h
        cases res with
        | error e2 =>
          simp only [Prod.mk.injEq, Except.error.injEq] at h
          obtain ⟨he, -⟩ := h
          subst he
          exact ⟨r.pos, r.pos - (-n).toNat, r.len, (set_position_error_inv hx).1⟩
        | ok u => simp at h
      · simp only [Prod.mk.injEq, Except.error.injEq] at h
        exact ⟨r.pos, (-n).toNat, r.len, h.1.symm⟩

theorem wset_position_error_inv {p : Nat} {w w' : ByteWriter} {e : Error}
    (h : ByteWriter.set_position p w = (.error e, w')) :
    e = .outOfBounds w.pos p w.len ∧ w' = w := by
  simp only [ByteWriter.set_position] at h
  split at h
  · simp only [Prod.mk.injEq, Except.error.injEq] at h
    exact ⟨h.1.symm, h.2.symm⟩
  · simp at h

theorem wseek_error_oob {s : SeekFrom} {w w' : ByteWriter} {e : Error}
    (h : ByteWriter.seek s w = (.error e, w')) : ∃ p q l, e = .outOfBounds p q l := by
  rcases s with n | n | n
  · simp only [ByteWriter.seek] at h
    rcases hx : ByteWriter.set_position n w with ⟨res, w2⟩
    rw [hx] at h
    cases res with
    | error e2 =>
      simp only [Prod.mk.injEq, Except.error.injEq] at h
      obtain ⟨he, -⟩ := h
      subst he
      exact ⟨w.pos, n, w.len, (wset_position_error_inv hx).1⟩
    | ok u => simp at h
  · simp only [ByteWriter.seek] at h
    split at h
    · simp only [Prod.mk.injEq, Except.error.injEq] at h
      exact ⟨w.pos, n.toNat, w.len, h.1.symm⟩
    · split at h
      · rcases hx : ByteWriter.set_position (w.len - (-n).toNat) w with ⟨res, w2⟩
        rw [hx] at h
        cases res with
        | error e2 =>
          simp only [Prod.mk.injEq, Except.error.injEq] at h
          obtain ⟨he, -⟩ := h
          subst he
          exact ⟨w.pos, w.len - (-n).toNat, w.len, (wset_position_error_inv hx).1⟩
        | ok u => simp at h
      · simp only [Prod.mk.injEq, Except.error.injEq] at h
        exact ⟨w.pos, (-n).toNat, w.len, h.1.symm⟩
  · simp only [ByteWriter.seek] at h
    split at h
    · rcases hx : ByteWriter.set_position (w.pos + n.toNat) w with ⟨res, w2⟩
      rw [hx] at h
      cases res with
      | error e2 =>
        simp only [Prod.mk.injEq, Except.error.injEq] at h
        obtain ⟨he, -⟩ := h
        subst he
        exact ⟨w.pos, w.pos + n.toNat, w.len, (wset_position_error_inv hx).1⟩
      | ok u => simp at h
    · split at h
      · rcases hx : ByteWriter.set_position (w.pos - (-n).toNat) w with ⟨res, w2⟩
        rw [hx] at h
        cases res with
        | error e2 =>
          simp only [Prod.mk.injEq, Except.error.injEq] at h
          obtain ⟨he, -⟩ := h
          subst he
          exact ⟨w.pos, w.pos - (-n).toNat, w.len, (wset_position_error_inv hx).1⟩
        | ok u => simp at h
      · simp only [Prod.mk.injEq, Except.error.injEq] at h
        exact ⟨w.pos, (-n).toNat, w.len, h.1.symm⟩

/-- C4: on both cursors `seek(End(k))` with `k > 0` fails with `OutOfBounds`
whose `requested` field is the raw offset `k`; every failing seek fails with
an `OutOfBounds` error and leaves the cursor unchanged; a negative `End` or
`Current` offset whose resolution would underflow below zero does fail, with
`OutOfBounds` carrying the offset magnitude and the cursor unchanged, as
does a positive `Current` offset whose resolved target lies past the end;
and seeking to absolute position 100 in a 4-byte buffer fails with
`OutOfBounds (pos 0, requested 100, len 4)`. -/
theorem c4_seek_errors :
    (∀ (r : ByteReader) (k : Int), 0 < k →
      ByteReader.seek (.fromEnd k) r = (.error (.outOfBounds r.pos k.toNat r.len), r)) ∧
    (∀ (w : ByteWriter) (k : Int), 0 < k →
      ByteWriter.seek (.fromEnd k) w = (.error (.outOfBounds w.pos k.toNat w.len), w)) ∧
    (∀ (s : SeekFrom) (r r' : ByteReader) (e : Error),
      ByteReader.seek s r = (.error e, r') →
      r' = r ∧ ∃ p q l, e = .outOfBounds p q l) ∧
    (∀ (s : SeekFrom) (w w' : ByteWriter) (e : Error),
      ByteWriter.seek s w = (.error e, w') →
      w' = w ∧ ∃ p q l, e = .outOfBounds p q l) ∧
    (∀ (r : ByteReader) (m : Int), m < 0 → r.len < (-m).toNat →
      ByteReader.seek (.fromEnd m) r =
        (.error (.outOfBounds r.pos (-m).toNat r.len), r)) ∧
    (∀ (r : ByteReader) (m : Int), m < 0 → r.pos < (-m).toNat →
      ByteReader.seek (.current m) r =
        (.error (.outOfBounds r.pos (-m).toNat r.len), r)) ∧
    (∀ (r : ByteReader) (n : Int), 0 < n → r.len < r.pos + n.toNat →
      ByteReader.seek (.current n) r =
        (.error (.outOfBounds r.pos (r.pos + n.toNat) r.len), r)) ∧
    (∀ (w : ByteWriter) (m : Int), m < 0 → w.len < (-m).toNat →
      ByteWriter.seek (.fromEnd m) w =
        (.error (.outOfBounds w.pos (-m).toNat w.len), w)) ∧
    (∀ (w : ByteWriter) (m : Int), m < 0 → w.pos < (-m).toNat →
      ByteWriter.seek (.current m) w =
        (.error (.outOfBounds w.pos (-m).toNat w.len), w)) ∧
    (∀ (w : ByteWriter) (n : Int), 0 < n → w.len < w.pos + n.toNat →
      ByteWriter.seek (.current n) w =
        (.error (.outOfBounds w.pos (w.pos + n.toNat) w.len), w)) ∧
    (∀ (e : Endian) (buf : List Nat), buf.length = 4 →
      ByteReader.seek (.start 100) (ByteReader.mk buf 0 e) =
        (.error (.outOfBounds 0 100 4), ByteReader.mk buf 0 e)) := by
  refine ⟨?_, ?_, ?_, ?_, ?_, ?_, ?_, ?_, ?_, ?_, ?_⟩
  · intro r k hk
    simp [ByteReader.seek, hk]
  · intro w k hk
    simp [ByteWriter.seek, hk]
  · intro s r r' e h
    exact ⟨seek_error_eq h, seek_error_oob h⟩
  · intro s w w' e h
    exact ⟨wseek_error_eq h, wseek_error_oob h⟩
  · intro r m hm hgt
    have h1 : ¬ (m > 0) := by omega
    have h2 : ¬ ((-m).toNat ≤ r.len) := by omega
    simp [ByteReader.seek, h1, h2]
  · intro r m hm hgt
    have h1 : ¬ (m > 0) := by omega
    have h2 : ¬ ((-m).toNat ≤ r.pos) := by omega
    simp [ByteReader.seek, h1, h2]
  · intro r n hn hgt
    have h1 : n > 0 := hn
    have h2 : r.pos + n.toNat > r.len := by omega
    simp [ByteReader.seek, ByteReader.set_position, h1, h2]
  · intro w m hm hgt
    have h1 : ¬ (m > 0) := by omega
    have h2 : ¬ ((-m).toNat ≤ w.len) := by omega
    simp [ByteWriter.seek, h1, h2]
  · intro w m hm hgt
    have h1 : ¬ (m > 0) := by omega
    have h2 : ¬ ((-m).toNat ≤ w.pos) := by omega
    simp [ByteWriter.seek, h1, h2]
  · intro w n hn hgt
    have h1 : n > 0 := hn
    have h2 : w.pos + n.toNat > w.len := by omega
    simp [ByteWriter.seek, ByteWriter.set_position, h1, h2]
  · intro e buf hl
    simp [ByteReader.seek, ByteReader.set_position, ByteReader.len, hl]

/-- C4 witness: a positive `End` offset, an underflowing negative `Current`
offset on a reader, an underflowing negative `End` offset on a writer, an
out-of-range positive `Current` offset, and the absolute-100 seek, all on
concrete cursors. -/
theorem c4_seek_errors_witness :
    ((0 : Int) < 3 ∧
      ByteReader.seek (.fromEnd 3) (ByteReader.mk [5, 6] 1 Endian.big) =
        (.error (.outOfBounds 1 3 2), ByteReader.mk [5, 6] 1 Endian.big)) ∧
    ((-5 : Int) < 0 ∧ (ByteReader.mk [5, 6] 1 Endian.big).pos < (-(-5 : Int)).toNat ∧
      ByteReader.seek (.current (-5)) (ByteReader.mk [5, 6] 1 Endian.big) =
        (.error (.outOfBounds 1 5 2), ByteReader.mk [5, 6] 1 Endian.big)) ∧
    ((-7 : Int) < 0 ∧ (ByteWriter.mk [0, 0] 0 Endian.little).len < (-(-7 : Int)).toNat ∧
      ByteWriter.seek (.fromEnd (-7)) (ByteWriter.mk [0, 0] 0 Endian.little) =
        (.error (.outOfBounds 0 7 2), ByteWriter.mk [0, 0] 0 Endian.little)) ∧
    ((0 : Int) < 9 ∧
      (ByteReader.mk [5, 6] 1 Endian.big).len <
        (ByteReader.mk [5, 6] 1 Endian.big).pos + (9 : Int).toNat ∧
      ByteReader.seek (.current 9) (ByteReader.mk [5, 6] 1 Endian.big) =
        (.error (.outOfBounds 1 10 2), ByteReader.mk [5, 6] 1 Endian.big)) ∧
    (([9, 9, 9, 9] : List Nat).length = 4 ∧
      ByteReader.seek (.start 100) (ByteReader.mk [9, 9, 9, 9] 0 Endian.little) =
        (.error (.outOfBounds 0 100 4), ByteReader.mk [9, 9, 9, 9] 0 Endian.little)) := by
  refine ⟨⟨by decide, c4_seek_errors.1 (ByteReader.mk [5, 6] 1 Endian.big) 3 (by decide)⟩,
    ⟨by decide, by decide, ?_⟩, ⟨by decide, by decide, ?_⟩, ⟨by decide, by decide, ?_⟩,
    ⟨by decide, c4_seek_errors.2.2.2.2.2.2.2.2.2.2
      Endian.little [9, 9, 9, 9] (by decide)⟩⟩
  · have h := c4_seek_errors.2.2.2.2.2.1 (ByteReader.mk [5, 6] 1 Endian.big) (-5)
      (by decide) (by decide)
    simpa using h
  · have h := c4_seek_errors.2.2.2.2.2.2.2.1 (ByteWriter.mk [0, 0] 0 Endian.little) (-7)
      (by decide) (by decide)
    simpa using h
  · have h := c4_seek_errors.2.2.2.2.2.2.1 (ByteReader.mk [5, 6] 1 Endian.big) 9
      (by decide) (by decide)
    simpa using h

theorem uint_of_bytes_one (le : Bool) (b : Nat) : uint_of_bytes le [b] = b := by
  cases le <;> simp [uint_of_bytes, bytes_to_nat_le]

theorem slice_one_at {r : ByteReader} {b : Nat} (hb : r.data[r.pos]? = some b) :
    (r.data.drop r.pos).take 1 = [b] := by
  obtain ⟨hlt, he⟩ := List.getElem?_eq_some_iff.mp hb
  rw [List.drop_eq_getElem_cons hlt]
  simp [he]

theorem read_uint8_at {nl : Bool} {r : ByteReader} {b : Nat}
    (hb : r.data[r.pos]? = some b) :
    ByteReader.read_uint nl 1 r = (.ok b, { r with pos := r.pos + 1 }) := by
  have hlt : r.pos < r.data.length := (List.getElem?_eq_some_iff.mp hb).1
  rw [read_uint_of_le (by omega), slice_one_at hb, uint_of_bytes_one]

/-- C5: the boolean codec uses exactly one byte.  Decoding maps the byte 0 to
`false`, 1 to `true` and everything else to `Error::NotValid`; encoding
`true` writes exactly the single byte 1 and `false` exactly the single byte
0 at the current position, touching nothing else. -/
theorem c5_bool_codec :
    (∀ (nl : Bool) (r : ByteReader) (b : Nat), r.data[r.pos]? = some b →
      ByteReader.read_bool nl r =
        (if b = 0 then (.ok false, { r with pos := r.pos + 1 })
         else if b = 1 then (.ok true, { r with pos := r.pos + 1 })
         else (.error .notValid, { r with pos := r.pos + 1 }))) ∧
    (∀ (w : ByteWriter) (b : Bool), w.pos < w.data.length →
      ByteWriter.write_bool b w =
        (.ok (), { w with
          data := w.data.take w.pos ++ [if b then 1 else 0] ++ w.data.drop (w.pos + 1),
          pos := w.pos + 1 })) := by
  constructor
  · intro nl r b hb
    simp only [ByteReader.read_bool, read_uint8_at hb]
    rcases b with _ | _ | b <;> simp
  · intro w b hlt
    cases b <;>
      simp [ByteWriter.write_bool, ByteWriter.write_exact, ByteWriter.check_bounds,
        ByteWriter.len, hlt, Nat.succ_le_of_lt hlt]

/-- C5 witness: decoding bytes 0, 1 and 7, and encoding both booleans, on
concrete cursors. -/
theorem c5_bool_codec_witness :
    ((ByteReader.mk [7, 1, 0] 0 Endian.big).data[(ByteReader.mk [7, 1, 0] 0 Endian.big).pos]? =
      some 7 ∧
      ByteReader.read_bool false (ByteReader.mk [7, 1, 0] 0 Endian.big) =
        (.error .notValid, ByteReader.mk [7, 1, 0] 1 Endian.big)) ∧
    ((ByteWriter.mk [9, 9] 0 Endian.little).pos <
        (ByteWriter.mk [9, 9] 0 Endian.little).data.length ∧
      ByteWriter.write_bool true (ByteWriter.mk [9, 9] 0 Endian.little) =
        (.ok (), ByteWriter.mk [1, 9] 1 Endian.little)) := by
  constructor
  · refine ⟨by decide, ?_⟩
    have h := c5_bool_codec.1 false (ByteReader.mk [7, 1, 0] 0 Endian.big) 7 (by decide)
    simpa using h
  · refine ⟨by decide, ?_⟩
    have h := c5_bool_codec.2 (ByteWriter.mk [9, 9] 0 Endian.little) true (by decide)
    simpa using h

/-- C9: decoding a bool over a byte that is neither 0 nor 1 returns
`Error::NotValid` but still advances the position by exactly 1 — the invalid
byte is consumed; by contrast the `InsufficientData` failure (no byte left)
leaves the position untouched. -/
theorem c9_bool_invalid_byte_consumed :
    (∀ (nl : Bool) (r : ByteReader) (b : Nat), r.data[r.pos]? = some b → 2 ≤ b →
      ByteReader.read_bool nl r = (.error .notValid, { r with pos := r.pos + 1 })) ∧
    (∀ (nl : Bool) (r : ByteReader), r.data.length ≤ r.pos →
      ByteReader.read_bool nl r =
        (.error (.insufficientData 1 (r.data.length - r.pos)), r)) := by
  constructor
  · intro nl r b hb h2
    simp only [ByteReader.read_bool, read_uint8_at hb]
    rcases b with _ | _ | b
    · omega
    · omega
    · simp
  · intro nl r hge
    simp only [ByteReader.read_bool, read_uint_of_gt (show r.data.length < r.pos + 1 by omega)]

/-- C9 witness: byte 5 at position 0 of a 2-byte buffer is consumed with
`NotValid`; an exhausted reader fails with `InsufficientData` and does not
move. -/
theorem c9_bool_invalid_byte_consumed_witness :
    ((ByteReader.mk [5, 0] 0 Endian.native).data[(ByteReader.mk [5, 0] 0 Endian.native).pos]? =
        some 5 ∧ 2 ≤ 5 ∧
      ByteReader.read_bool true (ByteReader.mk [5, 0] 0 Endian.native) =
        (.error .notValid, ByteReader.mk [5, 0] 1 Endian.native)) ∧
    ((ByteReader.mk [5, 0] 2 Endian.native).data.length ≤
        (ByteReader.mk [5, 0] 2 Endian.native).pos ∧
      ByteReader.read_bool true (ByteReader.mk [5, 0] 2 Endian.native) =
        (.error (.insufficientData 1 0), ByteReader.mk [5, 0] 2 Endian.native)) := by
  constructor
  · refine ⟨by decide, by decide, ?_⟩
    have h := c9_bool_invalid_byte_consumed.1 true (ByteReader.mk [5, 0] 0 Endian.native) 5
      (by decide) (by decide)
    simpa using h
  · refine ⟨by decide, ?_⟩
    have h := c9_bool_invalid_byte_consumed.2 true (ByteReader.mk [5, 0] 2 Endian.native)
      (by decide)
    simpa using h

/-! ### Byte-level encoding lemmas for the numeric codecs -/

theorem nat_to_bytes_le_length (w v : Nat) : (nat_to_bytes_le w v).length = w := by
  induction w generalizing v with
  | zero => rfl
  | succ k ih => simp [nat_to_bytes_le, ih]

theorem uint_bytes_length (le : Bool) (w v : Nat) : (uint_bytes le w v).length = w := by
  cases le <;> simp [uint_bytes, nat_to_bytes_le_length]

theorem pow256_eq (w : Nat) : 256 ^ w = 2 ^ (8 * w) := by
  rw [show (256 : Nat) = 2 ^ 8 from rfl, ← pow_mul]

theorem bytes_nat_roundtrip (w v : Nat) (h : v < 256 ^ w) :
    bytes_to_nat_le (nat_to_bytes_le w v) = v := by
  induction w generalizing v with
  | zero =>
    simp [nat_to_bytes_le, bytes_to_nat_le]
    omega
  | succ k ih =>
    have hdiv : v / 256 < 256 ^ k := by
      rw [Nat.div_lt_iff_lt_mul (by norm_num)]
      calc v < 256 ^ (k + 1) := h
        _ = 256 ^ k * 256 := by rw [pow_succ]
    simp only [nat_to_bytes_le, bytes_to_nat_le, ih (v / 256) hdiv]
    omega

theorem uint_roundtrip (le : Bool) (w v : Nat) (h : v < 2 ^ (8 * w)) :
    uint_of_bytes le (uint_bytes le w v) = v := by
  have h' : v < 256 ^ w := by rw [pow256_eq]; exact h
  cases le with
  | false =>
    simp only [uint_bytes, uint_of_bytes, Bool.false_eq_true, if_false, List.reverse_reverse]
    exact bytes_nat_roundtrip w v h'
  | true =>
    simp only [uint_bytes, uint_of_bytes, if_true]
    exact bytes_nat_roundtrip w v h'

theorem int_emod_add_self (a b : Int) : (a + b).emod b = a.emod b := by
  have h := @Int.add_mul_emod_self_left a b 1
  rw [mul_one] at h
  exact h

theorem int_roundtrip (le : Bool) (w : Nat) (v : Int) (hw : 1 ≤ w)
    (hlo : -(2 ^ (8 * w - 1)) ≤ v) (hhi : v < 2 ^ (8 * w - 1)) :
    int_of_bytes le w (int_bytes le w v) = v := by
  have hMH : (2 ^ (8 * w) : Int) = 2 * 2 ^ (8 * w - 1) := by
    rw [← pow_succ']
    congr 1
    omega
  have hApos : (0 : Int) < 2 ^ (8 * w - 1) := by positivity
  have hBpos : (0 : Int) < 2 ^ (8 * w) := by positivity
  have hA : ((2 ^ (8 * w - 1) : Nat) : Int) = (2 ^ (8 * w - 1) : Int) := by
    push_cast
    rfl
  have hB : ((2 ^ (8 * w) : Nat) : Int) = (2 ^ (8 * w) : Int) := by
    push_cast
    rfl
  have hemod0 : 0 ≤ v.emod (2 ^ (8 * w) : Int) := Int.emod_nonneg v (by omega)
  have hemodlt : v.emod (2 ^ (8 * w) : Int) < (2 ^ (8 * w) : Int) :=
    Int.emod_lt_of_pos v hBpos
  have hval : v.emod (2 ^ (8 * w) : Int) = if 0 ≤ v then v else v + 2 ^ (8 * w) := by
    split
    · exact Int.emod_eq_of_lt (by assumption) (by omega)
    · rw [← int_emod_add_self v (2 ^ (8 * w))]
      exact Int.emod_eq_of_lt (by omega) (by omega)
  have hmInt : ((v.emod (2 ^ (8 * w) : Int)).toNat : Int) = v.emod (2 ^ (8 * w) : Int) :=
    Int.toNat_of_nonneg hemod0
  have hmlt : (v.emod (2 ^ (8 * w) : Int)).toNat < 2 ^ (8 * w) := by omega
  simp only [int_bytes, int_of_bytes]
  rw [uint_roundtrip le w _ hmlt]
  by_cases h0 : 0 ≤ v
  · rw [if_pos h0] at hval
    split <;> omega
  · rw [if_neg h0] at hval
    split <;> omega

theorem write_exact_of_le {s : ByteWriter} {bs : List Nat}
    (h : s.pos + bs.length ≤ s.data.length) :
    ByteWriter.write_exact bs s =
      (.ok (), { s with
        data := s.data.take s.pos ++ bs ++ s.data.drop (s.pos + bs.length),
        pos := s.pos + bs.length }) := by
  simp [ByteWriter.write_exact, ByteWriter.check_bounds, ByteWriter.len, h]

theorem write_exact_of_gt {s : ByteWriter} {bs : List Nat}
    (h : s.data.length < s.pos + bs.length) :
    ByteWriter.write_exact bs s =
      (.error (.insufficientData bs.length (s.data.length - s.pos)), s) := by
  simp [ByteWriter.write_exact, ByteWriter.check_bounds, ByteWriter.len,
    ByteWriter.position, Nat.not_le.mpr h]

theorem slice_of_concat {pre mid post : List Nat} {p w : Nat}
    (hp : pre.length = p) (hw : mid.length = w) :
    ((pre ++ mid ++ post).drop p).take w = mid := by
  rw [List.append_assoc, List.drop_left' hp, List.take_left' hw]

theorem write_uint_of_le {s : ByteWriter} {nl : Bool} {w v : Nat}
    (h : s.pos + w ≤ s.data.length) :
    ByteWriter.write_uint nl w v s =
      (.ok (), { s with
        data := s.data.take s.pos ++ uint_bytes (s.endian.isLE nl) w v ++
          s.data.drop (s.pos + w),
        pos := s.pos + w }) := by
  simp only [ByteWriter.write_uint]
  rw [write_exact_of_le (by rw [uint_bytes_length]; exact h)]
  simp [uint_bytes_length]

theorem int_bytes_length (le : Bool) (w : Nat) (v : Int) : (int_bytes le w v).length = w := by
  simp [int_bytes, uint_bytes_length]

theorem write_int_of_le {s : ByteWriter} {nl : Bool} {w : Nat} {v : Int}
    (h : s.pos + w ≤ s.data.length) :
    ByteWriter.write_int nl w v s =
      (.ok (), { s with
        data := s.data.take s.pos ++ int_bytes (s.endian.isLE nl) w v ++
          s.data.drop (s.pos + w),
        pos := s.pos + w }) := by
  simp only [ByteWriter.write_int]
  rw [write_exact_of_le (by rw [int_bytes_length]; exact h)]
  simp [int_bytes_length]

theorem read_int_of_le {r : ByteReader} {nl : Bool} {w : Nat}
    (h : r.pos + w ≤ r.data.length) :
    ByteReader.read_int nl w r =
      (.ok (int_of_bytes (r.endian.isLE nl) w ((r.data.drop r.pos).take w)),
        { r with pos := r.pos + w }) := by
  simp [ByteReader.read_int, read_exact_of_le h]

/-- C2: for every primitive numeric type (covered by their widths: `u8..u128`
and `usize` as the unsigned codec at widths 1,2,4,8,16; `i8..i128` and
`isize` as the signed codec; `f32`/`f64` at byte level as the unsigned codec
of widths 4 and 8, since the source moves floats through their IEEE-754 bit
patterns), every value, and every endianness mode (including `Native` under
both possible host orders `nl`): writing the value and then reading the same
type from the resulting buffer at the same position under the same mode
returns the value exactly. -/
theorem c2_numeric_roundtrip :
    (∀ (nl : Bool) (e : Endian) (w v : Nat) (buf : List Nat) (p : Nat),
      v < 2 ^ (8 * w) → p + w ≤ buf.length →
      ∃ data' : List Nat,
        ByteWriter.write_uint nl w v (ByteWriter.mk buf p e) =
          (.ok (), ByteWriter.mk data' (p + w) e) ∧
        data'.length = buf.length ∧
        ByteReader.read_uint nl w (ByteReader.mk data' p e) =
          (.ok v, ByteReader.mk data' (p + w) e)) ∧
    (∀ (nl : Bool) (e : Endian) (w : Nat) (v : Int) (buf : List Nat) (p : Nat),
      1 ≤ w → -(2 ^ (8 * w - 1)) ≤ v → v < 2 ^ (8 * w - 1) → p + w ≤ buf.length →
      ∃ data' : List Nat,
        ByteWriter.write_int nl w v (ByteWriter.mk buf p e) =
          (.ok (), ByteWriter.mk data' (p + w) e) ∧
        data'.length = buf.length ∧
        ByteReader.read_int nl w (ByteReader.mk data' p e) =
          (.ok v, ByteReader.mk data' (p + w) e)) := by
  constructor
  · intro nl e w v buf p hv hp
    refine ⟨buf.take p ++ uint_bytes (e.isLE nl) w v ++ buf.drop (p + w), ?_, ?_, ?_⟩
    · exact write_uint_of_le hp
    · simp only [List.length_append, List.length_take, List.length_drop,
        uint_bytes_length]
      omega
    · have hlen : (buf.take p ++ uint_bytes (e.isLE nl) w v ++ buf.drop (p + w)).length =
          buf.length := by
        simp only [List.length_append, List.length_take, List.length_drop,
          uint_bytes_length]
        omega
      rw [read_uint_of_le (by rw [hlen]; exact hp)]
      rw [show (ByteReader.mk (buf.take p ++ uint_bytes (e.isLE nl) w v ++
          buf.drop (p + w)) p e).data = buf.take p ++ uint_bytes (e.isLE nl) w v ++
          buf.drop (p + w) from rfl]
      rw [slice_of_concat (by simp only [List.length_take]; omega) (uint_bytes_length _ _ _)]
      rw [uint_roundtrip _ w v hv]
  · intro nl e w v buf p hw hlo hhi hp
    refine ⟨buf.take p ++ int_bytes (e.isLE nl) w v ++ buf.drop (p + w), ?_, ?_, ?_⟩
    · exact write_int_of_le hp
    · simp only [List.length_append, List.length_take, List.length_drop,
        int_bytes_length]
      omega
    · have hlen : (buf.take p ++ int_bytes (e.isLE nl) w v ++ buf.drop (p + w)).length =
          buf.length := by
        simp only [List.length_append, List.length_take, List.length_drop,
          int_bytes_length]
        omega
      rw [read_int_of_le (by rw [hlen]; exact hp)]
      rw [show (ByteReader.mk (buf.take p ++ int_bytes (e.isLE nl) w v ++
          buf.drop (p + w)) p e).data = buf.take p ++ int_bytes (e.isLE nl) w v ++
          buf.drop (p + w) from rfl]
      rw [slice_of_concat (by simp only [List.length_take]; omega) (int_bytes_length _ _ _)]
      rw [int_roundtrip _ w v hw hlo hhi]

/-- C2 witness: a `u32`-width round trip of `0x12345678` in big-endian and an
`i16`-width round trip of `-2` in little-endian, on concrete buffers. -/
theorem c2_numeric_roundtrip_witness :
    (0x12345678 < 2 ^ (8 * 4) ∧ 1 + 4 ≤ ([0, 0, 0, 0, 0, 0] : List Nat).length ∧
      ∃ data' : List Nat,
        ByteWriter.write_uint true 4 0x12345678 (ByteWriter.mk [0, 0, 0, 0, 0, 0] 1 Endian.big) =
          (.ok (), ByteWriter.mk data' (1 + 4) Endian.big) ∧
        data'.length = ([0, 0, 0, 0, 0, 0] : List Nat).length ∧
        ByteReader.read_uint true 4 (ByteReader.mk data' 1 Endian.big) =
          (.ok 0x12345678, ByteReader.mk data' (1 + 4) Endian.big)) ∧
    ((1 : Nat) ≤ 2 ∧ -(2 ^ (8 * 2 - 1)) ≤ (-2 : Int) ∧ (-2 : Int) < 2 ^ (8 * 2 - 1) ∧
      0 + 2 ≤ ([7, 7] : List Nat).length ∧
      ∃ data' : List Nat,
        ByteWriter.write_int false 2 (-2) (ByteWriter.mk [7, 7] 0 Endian.little) =
          (.ok (), ByteWriter.mk data' (0 + 2) Endian.little) ∧
        data'.length = ([7, 7] : List Nat).length ∧
        ByteReader.read_int false 2 (ByteReader.mk data' 0 Endian.little) =
          (.ok (-2), ByteReader.mk data' (0 + 2) Endian.little)) :=
  ⟨⟨by decide, by decide,
      c2_numeric_roundtrip.1 true Endian.big 4 0x12345678 [0, 0, 0, 0, 0, 0] 1
        (by decide) (by decide)⟩,
    ⟨by decide, by decide, by decide, by decide,
      c2_numeric_roundtrip.2 false Endian.little 2 (-2) [7, 7] 0
        (by decide) (by decide) (by decide) (by decide)⟩⟩

/-- C8: `read_ascii(n)` and `peek_ascii(n)` validate the `n` bytes as UTF-8
first and check the ASCII range only once UTF-8 validity is confirmed:
invalid UTF-8 always gives `NotValidUTF8` (never `NotValidAscii`, even when
the input is also not ASCII), valid UTF-8 with a byte ≥ 128 gives
`NotValidAscii`, and valid all-ASCII input succeeds.  `read_ascii` advances
the position by `n` in every one of these cases, `peek_ascii` never moves
it. -/
theorem c8_ascii_validation_order (r : ByteReader) (n : Nat)
    (hle : r.pos + n ≤ r.data.length) :
    (valid_utf8 ((r.data.drop r.pos).take n) = false →
      ByteReader.read_ascii n r = (.error .notValidUTF8, { r with pos := r.pos + n }) ∧
      ByteReader.peek_ascii n r = (.error .notValidUTF8, r)) ∧
    (valid_utf8 ((r.data.drop r.pos).take n) = true →
      all_ascii ((r.data.drop r.pos).take n) = false →
      ByteReader.read_ascii n r = (.error .notValidAscii, { r with pos := r.pos + n }) ∧
      ByteReader.peek_ascii n r = (.error .notValidAscii, r)) ∧
    (valid_utf8 ((r.data.drop r.pos).take n) = true →
      all_ascii ((r.data.drop r.pos).take n) = true →
      ByteReader.read_ascii n r =
        (.ok ((r.data.drop r.pos).take n), { r with pos := r.pos + n }) ∧
      ByteReader.peek_ascii n r = (.ok ((r.data.drop r.pos).take n), r)) := by
  refine ⟨?_, ?_, ?_⟩
  · intro hu
    constructor
    · simp only [ByteReader.read_ascii, read_exact_of_le hle, hu]
      simp
    · simp only [ByteReader.peek_ascii, peek_exact_of_le hle, hu]
      simp
  · intro hu ha
    constructor
    · simp only [ByteReader.read_ascii, read_exact_of_le hle, hu, ha]
      simp
    · simp only [ByteReader.peek_ascii, peek_exact_of_le hle, hu, ha]
      simp
  · intro hu ha
    constructor
    · simp only [ByteReader.read_ascii, read_exact_of_le hle, hu, ha]
      simp
    · simp only [ByteReader.peek_ascii, peek_exact_of_le hle, hu, ha]
      simp

/-- C8 witness: the three validation outcomes on concrete two-byte inputs —
`[0xC0, 0x80]` (invalid UTF-8, also not ASCII: fails `NotValidUTF8`, never
`NotValidAscii`), `[0xC3, 0xA9]` (valid UTF-8, not ASCII: fails
`NotValidAscii`), and `[0x41, 0x42]` (ASCII: succeeds). -/
theorem c8_ascii_validation_order_witness :
    ((ByteReader.mk [192, 128] 0 Endian.native).pos + 2 ≤
        (ByteReader.mk [192, 128] 0 Endian.native).data.length ∧
      valid_utf8 [192, 128] = false ∧
      ByteReader.read_ascii 2 (ByteReader.mk [192, 128] 0 Endian.native) =
        (.error .notValidUTF8, ByteReader.mk [192, 128] 2 Endian.native)) ∧
    (valid_utf8 [195, 169] = true ∧ all_ascii [195, 169] = false ∧
      ByteReader.read_ascii 2 (ByteReader.mk [195, 169] 0 Endian.native) =
        (.error .notValidAscii, ByteReader.mk [195, 169] 2 Endian.native)) ∧
    (valid_utf8 [65, 66] = true ∧ all_ascii [65, 66] = true ∧
      ByteReader.peek_ascii 2 (ByteReader.mk [65, 66] 0 Endian.native) =
        (.ok [65, 66], ByteReader.mk [65, 66] 0 Endian.native)) := by
  refine ⟨⟨by decide, by decide, ?_⟩, ⟨by decide, by decide, ?_⟩, ⟨by decide, by decide, ?_⟩⟩
  · have h := (c8_ascii_validation_order (ByteReader.mk [192, 128] 0 Endian.native) 2
      (by decide)).1 (by decide)
    simpa using h.1
  · have h := ((c8_ascii_validation_order (ByteReader.mk [195, 169] 0 Endian.native) 2
      (by decide)).2.1 (by decide) (by decide))
    simpa using h.1
  · have h := ((c8_ascii_validation_order (ByteReader.mk [65, 66] 0 Endian.native) 2
      (by decide)).2.2 (by decide) (by decide))
    simpa using h.2

/-! ### Characterization of the CString decoder loop -/

theorem read_cstring_loop_found (nl : Bool) :
    ∀ (content acc suffix : List Nat) (r : ByteReader),
      r.data.drop r.pos = content ++ 0 :: suffix → (∀ x ∈ content, x ≠ 0) →
      ByteReader.read_cstring_loop nl acc r =
        (.ok (acc ++ content ++ [0]), { r with pos := r.pos + (content.length + 1) }) := by
  intro content
  induction content with
  | nil =>
    intro acc suffix r hrest hnz
    have hlen : (r.data.drop r.pos).length = (([] : List Nat) ++ 0 :: suffix).length := by
      rw [hrest]
    have hlt : r.pos < r.data.length := by
      simp only [List.length_drop, List.nil_append, List.length_cons] at hlen
      omega
    have hs : (r.data.drop r.pos).take 1 = [0] := by rw [hrest]; rfl
    have hb : ByteReader.read_uint nl 1 r = (.ok 0, { r with pos := r.pos + 1 }) := by
      rw [read_uint_of_le (by omega), hs, uint_of_bytes_one]
    rw [ByteReader.read_cstring_loop]
    split
    · rename_i b r2 h
      rw [hb] at h
      simp only [Prod.mk.injEq, Except.ok.injEq] at h
      obtain ⟨hb0, hr2⟩ := h
      subst hb0
      subst hr2
      rw [if_pos rfl]
      simp
    · rename_i e r2 h
      rw [hb] at h
      simp at h
  | cons x content' ih =>
    intro acc suffix r hrest hnz
    have hlen : (r.data.drop r.pos).length = (x :: (content' ++ 0 :: suffix)).length := by
      rw [hrest]
      simp
    have hlt : r.pos < r.data.length := by
      simp only [List.length_drop, List.length_cons] at hlen
      omega
    have hs : (r.data.drop r.pos).take 1 = [x] := by rw [hrest]; rfl
    have hb : ByteReader.read_uint nl 1 r = (.ok x, { r with pos := r.pos + 1 }) := by
      rw [read_uint_of_le (by omega), hs, uint_of_bytes_one]
    have hx : x ≠ 0 := hnz x (by simp)
    rw [ByteReader.read_cstring_loop]
    split
    · rename_i b r2 h
      rw [hb] at h
      simp only [Prod.mk.injEq, Except.ok.injEq] at h
      obtain ⟨hb0, hr2⟩ := h
      subst hb0
      subst hr2
      rw [if_neg hx]
      have hrest' : ({ r with pos := r.pos + 1 } : ByteReader).data.drop
          ({ r with pos := r.pos + 1 } : ByteReader).pos = content' ++ 0 :: suffix := by
        show r.data.drop (r.pos + 1) = content' ++ 0 :: suffix
        rw [← List.drop_drop, hrest]
        rfl
      rw [ih (acc ++ [x]) suffix { r with pos := r.pos + 1 } hrest'
        (fun y hy => hnz y (by simp [hy]))]
      have hpos : r.pos + 1 + (content'.length + 1) = r.pos + ((x :: content').length + 1) := by
        simp only [List.length_cons]
        omega
      rw [hpos]
      simp [List.append_assoc]
    · rename_i e r2 h
      rw [hb] at h
      simp at h

theorem read_cstring_loop_not_found (nl : Bool) :
    ∀ (fuel : Nat) (acc : List Nat) (r : ByteReader), r.data.length - r.pos = fuel →
      r.pos ≤ r.data.length → (∀ x ∈ r.data.drop r.pos, x ≠ 0) →
      ByteReader.read_cstring_loop nl acc r =
        (.error (.insufficientData 1 0), { r with pos := r.data.length }) := by
  intro fuel
  induction fuel with
  | zero =>
    intro acc r hf hwf hnz
    have hpos : r.pos = r.data.length := by omega
    rw [ByteReader.read_cstring_loop]
    split
    · rename_i b r2 h
      rw [read_uint_of_gt (by omega)] at h
      simp at h
    · rename_i e r2 h
      rw [read_uint_of_gt (by omega)] at h
      simp only [Prod.mk.injEq, Except.error.injEq] at h
      obtain ⟨he, hr2⟩ := h
      subst he
      subst hr2
      have hav : r.data.length - r.pos = 0 := by omega
      rw [hav]
      cases r with
      | mk d p e2 =>
        simp at hpos
        simp [hpos]
  | succ k ih =>
    intro acc r hf hwf hnz
    have hlt : r.pos < r.data.length := by omega
    have hb0 : r.data.drop r.pos = r.data[r.pos] :: r.data.drop (r.pos + 1) :=
      List.drop_eq_getElem_cons hlt
    have hs : (r.data.drop r.pos).take 1 = [r.data[r.pos]] := by rw [hb0]; rfl
    have hb : ByteReader.read_uint nl 1 r =
        (.ok r.data[r.pos], { r with pos := r.pos + 1 }) := by
      rw [read_uint_of_le (by omega), hs, uint_of_bytes_one]
    have hx : r.data[r.pos] ≠ 0 := hnz _ (by rw [hb0]; exact List.mem_cons_self _ _)
    rw [ByteReader.read_cstring_loop]
    split
    · rename_i b r2 h
      rw [hb] at h
      simp only [Prod.mk.injEq, Except.ok.injEq] at h
      obtain ⟨hbv, hr2⟩ := h
      subst hbv
      subst hr2
      rw [if_neg hx]
      have hnz' : ∀ x ∈ ({ r with pos := r.pos + 1 } : ByteReader).data.drop
          ({ r with pos := r.pos + 1 } : ByteReader).pos, x ≠ 0 := by
        intro x hxm
        refine hnz x ?_
        rw [hb0]
        simp only [List.mem_cons]
        right
        exact hxm
      exact ih (acc ++ [r.data[r.pos]]) { r with pos := r.pos + 1 } (by simp; omega)
        (by show r.pos + 1 ≤ r.data.length; omega) hnz'
    · rename_i e r2 h
      rw [hb] at h
      simp at h

theorem read_cstring_loop_ok_shape (nl : Bool) :
    ∀ (fuel : Nat) (acc : List Nat) (r : ByteReader), r.data.length - r.pos = fuel →
      ∀ (v : List Nat) (r' : ByteReader),
        ByteReader.read_cstring_loop nl acc r = (.ok v, r') →
        ∃ content : List Nat, v = acc ++ content ++ [0] ∧ ∀ x ∈ content, x ≠ 0 := by
  intro fuel
  induction fuel with
  | zero =>
    intro acc r hf v r' hloop
    rw [ByteReader.read_cstring_loop] at hloop
    split at hloop
    · rename_i b r2 h
      rw [read_uint_of_gt (by omega)] at h
      simp at h
    · simp at hloop
  | succ k ih =>
    intro acc r hf v r' hloop
    have hlt : r.pos < r.data.length := by omega
    have hb0 : r.data.drop r.pos = r.data[r.pos] :: r.data.drop (r.pos + 1) :=
      List.drop_eq_getElem_cons hlt
    have hs : (r.data.drop r.pos).take 1 = [r.data[r.pos]] := by rw [hb0]; rfl
    have hb : ByteReader.read_uint nl 1 r =
        (.ok r.data[r.pos], { r with pos := r.pos + 1 }) := by
      rw [read_uint_of_le (by omega), hs, uint_of_bytes_one]
    rw [ByteReader.read_cstring_loop] at hloop
    split at hloop
    · rename_i b r2 h
      rw [hb] at h
      simp only [Prod.mk.injEq, Except.ok.injEq] at h
      obtain ⟨hbv, hr2⟩ := h
      subst hbv
      subst hr2
      by_cases hz : r.data[r.pos] = 0
      · rw [if_pos hz] at hloop
        simp only [Prod.mk.injEq, Except.ok.injEq] at hloop
        exact ⟨[], by rw [← hloop.1, hz]; simp, by simp⟩
      · rw [if_neg hz] at hloop
        obtain ⟨content, hv, hcnz⟩ := ih (acc ++ [r.data[r.pos]])
          { r with pos := r.pos + 1 } (by simp; omega) v r' hloop
        refine ⟨r.data[r.pos] :: content, ?_, ?_⟩
        · rw [hv]
          simp
        · intro x hxm
          rcases List.mem_cons.mp hxm with h1 | h1
          · rw [h1]; exact hz
          · exact hcnz x h1
    · simp at hloop

theorem read_cstring_loop_error_shape (nl : Bool) :
    ∀ (fuel : Nat) (acc : List Nat) (r : ByteReader), r.data.length - r.pos = fuel →
      ∀ (e : Error) (r' : ByteReader),
        ByteReader.read_cstring_loop nl acc r = (.error e, r') →
        ∃ av : Nat, e = .insufficientData 1 av := by
  intro fuel
  induction fuel with
  | zero =>
    intro acc r hf e r' hloop
    rw [ByteReader.read_cstring_loop] at hloop
    split at hloop
    · rename_i b r2 h
      rw [read_uint_of_gt (by omega)] at h
      simp at h
    · rename_i e2 r2 h
      rw [read_uint_of_gt (by omega)] at h
      simp only [Prod.mk.injEq, Except.error.injEq] at h
      simp only [Prod.mk.injEq, Except.error.injEq] at hloop
      obtain ⟨he2, -⟩ := h
      obtain ⟨he, -⟩ := hloop
      subst he
      exact ⟨r.data.length - r.pos, he2.symm⟩
  | succ k ih =>
    intro acc r hf e r' hloop
    have hlt : r.pos < r.data.length := by omega
    have hb0 : r.data.drop r.pos = r.data[r.pos] :: r.data.drop (r.pos + 1) :=
      List.drop_eq_getElem_cons hlt
    have hs : (r.data.drop r.pos).take 1 = [r.data[r.pos]] := by rw [hb0]; rfl
    have hb : ByteReader.read_uint nl 1 r =
        (.ok r.data[r.pos], { r with pos := r.pos + 1 }) := by
      rw [read_uint_of_le (by omega), hs, uint_of_bytes_one]
    rw [ByteReader.read_cstring_loop] at hloop
    split at hloop
    · rename_i b r2 h
      rw [hb] at h
      simp only [Prod.mk.injEq, Except.ok.injEq] at h
      obtain ⟨hbv, hr2⟩ := h
      subst hbv
      subst hr2
      by_cases hz : r.data[r.pos] = 0
      · rw [if_pos hz] at hloop
        simp at hloop
      · rw [if_neg hz] at hloop
        exact ih (acc ++ [r.data[r.pos]]) { r with pos := r.pos + 1 } (by simp; omega)
          e r' hloop
    · rename_i e2 r2 h
      rw [hb] at h
      simp at h

theorem first_zero_split (l : List Nat) (h : 0 ∈ l) :
    ∃ s t : List Nat, l = s ++ 0 :: t ∧ ∀ x ∈ s, x ≠ 0 := by
  induction l with
  | nil => cases h
  | cons a l ih =>
    by_cases ha : a = 0
    · exact ⟨[], l, by simp [ha], by simp⟩
    · have h' : 0 ∈ l := by
        rcases List.mem_cons.mp h with h1 | h1
        · exact absurd h1.symm ha
        · exact h1
      obtain ⟨s, t, hl, hs⟩ := ih h'
      refine ⟨a :: s, t, by rw [hl]; rfl, ?_⟩
      intro x hxm
      rcases List.mem_cons.mp hxm with h1 | h1
      · rw [h1]; exact ha
      · exact hs x h1

theorem from_vec_with_nul_concat (content : List Nat) (hnz : ∀ x ∈ content, x ≠ 0) :
    ByteReader.from_vec_with_nul (content ++ [0]) = some content := by
  rw [ByteReader.from_vec_with_nul, if_pos]
  · rw [List.dropLast_concat]
  · constructor
    · rw [List.getLast?_concat]
    · rw [List.dropLast_concat]
      exact hnz

theorem read_cstring_found {nl : Bool} {r : ByteReader} {content suffix : List Nat}
    (hrest : r.data.drop r.pos = content ++ 0 :: suffix) (hnz : ∀ x ∈ content, x ≠ 0) :
    ByteReader.read_cstring nl r =
      (.ok content, { r with pos := r.pos + (content.length + 1) }) := by
  have hloop := read_cstring_loop_found nl content [] suffix r hrest hnz
  simp only [List.nil_append] at hloop
  simp only [ByteReader.read_cstring, hloop, from_vec_with_nul_concat content hnz]

theorem read_cstring_not_found {nl : Bool} {r : ByteReader}
    (hwf : r.pos ≤ r.data.length) (hnz : ∀ x ∈ r.data.drop r.pos, x ≠ 0) :
    ByteReader.read_cstring nl r =
      (.error (.insufficientData 1 0), { r with pos := r.data.length }) := by
  have hloop := read_cstring_loop_not_found nl (r.data.length - r.pos) [] r rfl hwf hnz
  simp only [ByteReader.read_cstring, hloop]

/-- C7: the null-terminated string codec.  Decoding consumes bytes up to and
including the first 0x00 terminator and returns the content with the
terminator stripped (the collected vector always passes the
exactly-one-trailing-nul validation); encoding writes the content bytes plus
a single terminator, failing with `NotValid` exactly when the content length
exceeds `u32::MAX - 1`; in consequence encode-then-decode returns the
content — in particular for "test". -/
theorem c7_cstring_codec :
    (∀ (content : List Nat) (s : ByteWriter), content.length ≤ 4294967294 →
      s.pos + (content.length + 1) ≤ s.data.length →
      ByteWriter.write_cstring content s =
        (.ok (), { s with
          data := s.data.take s.pos ++ (content ++ [0]) ++
            s.data.drop (s.pos + (content.length + 1)),
          pos := s.pos + (content.length + 1) })) ∧
    (∀ (content : List Nat) (s : ByteWriter), content.length > 4294967294 →
      ByteWriter.write_cstring content s = (.error .notValid, s)) ∧
    (∀ (nl : Bool) (r : ByteReader) (content suffix : List Nat),
      r.data.drop r.pos = content ++ 0 :: suffix → (∀ x ∈ content, x ≠ 0) →
      ByteReader.read_cstring nl r =
        (.ok content, { r with pos := r.pos + (content.length + 1) })) ∧
    (∀ (nl : Bool) (e : Endian) (content buf : List Nat) (p : Nat),
      (∀ x ∈ content, x ≠ 0) → content.length ≤ 4294967294 →
      p + (content.length + 1) ≤ buf.length →
      ∃ data' : List Nat,
        ByteWriter.write_cstring content (ByteWriter.mk buf p e) =
          (.ok (), ByteWriter.mk data' (p + (content.length + 1)) e) ∧
        ByteReader.read_cstring nl (ByteReader.mk data' p e) =
          (.ok content, ByteReader.mk data' (p + (content.length + 1)) e)) := by
  have hwrite : ∀ (content : List Nat) (s : ByteWriter), content.length ≤ 4294967294 →
      s.pos + (content.length + 1) ≤ s.data.length →
      ByteWriter.write_cstring content s =
        (.ok (), { s with
          data := s.data.take s.pos ++ (content ++ [0]) ++
            s.data.drop (s.pos + (content.length + 1)),
          pos := s.pos + (content.length + 1) }) := by
    intro content s hsmall hsp
    simp only [ByteWriter.write_cstring]
    rw [if_neg (by omega)]
    rw [write_exact_of_le (by simp; omega)]
    simp
  refine ⟨hwrite, ?_, ?_, ?_⟩
  · intro content s hbig
    simp only [ByteWriter.write_cstring]
    rw [if_pos hbig]
  · intro nl r content suffix hrest hnz
    exact read_cstring_found hrest hnz
  · intro nl e content buf p hnz hsmall hsp
    refine ⟨buf.take p ++ (content ++ [0]) ++ buf.drop (p + (content.length + 1)), ?_, ?_⟩
    · exact hwrite content (ByteWriter.mk buf p e) hsmall hsp
    · have hsplit : (ByteReader.mk (buf.take p ++ (content ++ [0]) ++
          buf.drop (p + (content.length + 1))) p e).data.drop
          (ByteReader.mk (buf.take p ++ (content ++ [0]) ++
          buf.drop (p + (content.length + 1))) p e).pos =
          content ++ 0 :: buf.drop (p + (content.length + 1)) := by
        show ((buf.take p ++ (content ++ [0]) ++ buf.drop (p + (content.length + 1))).drop p) =
          content ++ 0 :: buf.drop (p + (content.length + 1))
        rw [List.append_assoc, List.drop_left' (by simp; omega)]
        simp
      exact read_cstring_found hsplit hnz

/-- C7 witness: encoding the bytes of "test" into a 10-byte buffer and
decoding them back. -/
theorem c7_cstring_codec_witness :
    (∀ x ∈ ([116, 101, 115, 116] : List Nat), x ≠ 0) ∧
    ([116, 101, 115, 116] : List Nat).length ≤ 4294967294 ∧
    0 + (([116, 101, 115, 116] : List Nat).length + 1) ≤
      ([0, 0, 0, 0, 0, 0, 0, 0, 0, 0] : List Nat).length ∧
    ∃ data' : List Nat,
      ByteWriter.write_cstring [116, 101, 115, 116]
          (ByteWriter.mk [0, 0, 0, 0, 0, 0, 0, 0, 0, 0] 0 Endian.little) =
        (.ok (), ByteWriter.mk data' (0 + (([116, 101, 115, 116] : List Nat).length + 1))
          Endian.little) ∧
      ByteReader.read_cstring true (ByteReader.mk data' 0 Endian.little) =
        (.ok [116, 101, 115, 116],
          ByteReader.mk data' (0 + (([116, 101, 115, 116] : List Nat).length + 1))
            Endian.little) :=
  ⟨by decide, by decide, by decide,
    c7_cstring_codec.2.2.2 true Endian.little [116, 101, 115, 116]
      [0, 0, 0, 0, 0, 0, 0, 0, 0, 0] 0 (by decide) (by decide) (by decide)⟩

/-- C10: the `Error::Custom` branch of the CString decoder is unreachable —
the collected byte vector always ends with its only nul byte, so the
`from_vec_with_nul` validation always succeeds; CString decoding fails only
with `InsufficientData` (requested 1, available 0), exactly when the data is
exhausted before a terminator byte is found. -/
theorem c10_cstring_custom_unreachable :
    (∀ (nl : Bool) (r : ByteReader),
      (ByteReader.read_cstring nl r).1 ≠ .error .custom) ∧
    (∀ (nl : Bool) (r : ByteReader), r.pos ≤ r.data.length →
      ((∃ e r', ByteReader.read_cstring nl r = (.error e, r')) ↔
        0 ∉ r.data.drop r.pos)) ∧
    (∀ (nl : Bool) (r : ByteReader), r.pos ≤ r.data.length → 0 ∉ r.data.drop r.pos →
      ByteReader.read_cstring nl r =
        (.error (.insufficientData 1 0), { r with pos := r.data.length })) := by
  refine ⟨?_, ?_, ?_⟩
  · intro nl r
    rcases hx : ByteReader.read_cstring_loop nl [] r with ⟨res, r2⟩
    cases res with
    | ok v =>
      obtain ⟨content, hv, hcnz⟩ := read_cstring_loop_ok_shape nl
        (r.data.length - r.pos) [] r rfl v r2 hx
      simp only [List.nil_append] at hv
      subst hv
      simp only [ByteReader.read_cstring, hx, from_vec_with_nul_concat content hcnz]
      simp
    | error e =>
      obtain ⟨av, he⟩ := read_cstring_loop_error_shape nl
        (r.data.length - r.pos) [] r rfl e r2 hx
      subst he
      simp only [ByteReader.read_cstring, hx]
      simp
  · intro nl r hwf
    constructor
    · intro ⟨e, r', herr⟩ hmem
      obtain ⟨content, suffix, hsplit, hcnz⟩ := first_zero_split _ hmem
      rw [read_cstring_found hsplit hcnz] at herr
      simp at herr
    · intro hno
      exact ⟨.insufficientData 1 0, { r with pos := r.data.length },
        read_cstring_not_found hwf (fun x hx => by
          intro h0
          rw [h0] at hx
          exact hno hx)⟩
  · intro nl r hwf hno
    exact read_cstring_not_found hwf (fun x hx => by
      intro h0
      rw [h0] at hx
      exact hno hx)

/-- C10 witness: a reader over `[1, 2, 3]` with no terminator fails with
`InsufficientData (requested 1, available 0)` after consuming everything. -/
theorem c10_cstring_custom_unreachable_witness :
    ((ByteReader.mk [1, 2, 3] 0 Endian.big).pos ≤
        (ByteReader.mk [1, 2, 3] 0 Endian.big).data.length ∧
      0 ∉ (ByteReader.mk [1, 2, 3] 0 Endian.big).data.drop
        (ByteReader.mk [1, 2, 3] 0 Endian.big).pos ∧
      ByteReader.read_cstring false (ByteReader.mk [1, 2, 3] 0 Endian.big) =
        (.error (.insufficientData 1 0), ByteReader.mk [1, 2, 3] 3 Endian.big)) := by
  refine ⟨by decide, by decide, ?_⟩
  have h := c10_cstring_custom_unreachable.2.2 false (ByteReader.mk [1, 2, 3] 0 Endian.big)
    (by decide) (by decide)
  simpa using h

theorem elems_uint_roundtrip (nl : Bool) (w : Nat) (e : Endian) :
    ∀ (l buf : List Nat) (p : Nat),
      (∀ x ∈ l, x < 2 ^ (8 * w)) → p + w * l.length ≤ buf.length →
      ∃ data' : List Nat,
        ByteWriter.write_elems (ByteWriter.write_uint nl w) l (ByteWriter.mk buf p e) =
          (.ok (), ByteWriter.mk data' (p + w * l.length) e) ∧
        data'.length = buf.length ∧
        data'.take p = buf.take p ∧
        data'.drop (p + w * l.length) = buf.drop (p + w * l.length) ∧
        ByteReader.read_elems (ByteReader.read_uint nl w) l.length (ByteReader.mk data' p e) =
          (.ok l, ByteReader.mk data' (p + w * l.length) e) := by
  intro l
  induction l with
  | nil =>
    intro buf p hbd hbound
    refine ⟨buf, ?_, rfl, rfl, rfl, ?_⟩
    · simp [ByteWriter.write_elems]
    · simp [ByteReader.read_elems]
  | cons x l' ih =>
    intro buf p hbd hbound
    have hx : x < 2 ^ (8 * w) := hbd x (by simp)
    have hmul : w * (x :: l').length = w * l'.length + w := by
      rw [List.length_cons, Nat.mul_succ]
    have hlen1 : p + w ≤ buf.length := by omega
    have hs1 : ByteWriter.write_uint nl w x (ByteWriter.mk buf p e) =
        (.ok (), ByteWriter.mk
          (buf.take p ++ uint_bytes (e.isLE nl) w x ++ buf.drop (p + w)) (p + w) e) := by
      have h := @write_uint_of_le (ByteWriter.mk buf p e) nl w x hlen1
      simpa using h
    have hD1len : (buf.take p ++ uint_bytes (e.isLE nl) w x ++ buf.drop (p + w)).length =
        buf.length := by
      simp only [List.length_append, List.length_take, List.length_drop, uint_bytes_length]
      omega
    have hD1take : (buf.take p ++ uint_bytes (e.isLE nl) w x ++ buf.drop (p + w)).take (p + w) =
        buf.take p ++ uint_bytes (e.isLE nl) w x := by
      exact List.take_left' (by
        simp only [List.length_append, List.length_take, uint_bytes_length]
        omega)
    have hbound' : (p + w) + w * l'.length ≤
        (buf.take p ++ uint_bytes (e.isLE nl) w x ++ buf.drop (p + w)).length := by
      rw [hD1len]
      omega
    obtain ⟨data', hw1, hlen', htake', hdrop', hread'⟩ :=
      ih (buf.take p ++ uint_bytes (e.isLE nl) w x ++ buf.drop (p + w)) (p + w)
        (fun y hy => hbd y (by simp [hy])) hbound'
    have harith : (p + w) + w * l'.length = p + w * (x :: l').length := by omega
    refine ⟨data', ?_, hlen'.trans hD1len, ?_, ?_, ?_⟩
    · simp only [ByteWriter.write_elems, hs1]
      rw [hw1, harith]
    · have h1 : data'.take p = (data'.take (p + w)).take p := by
        rw [List.take_take]
        congr 1
        omega
      rw [h1, htake', hD1take]
      exact List.take_left' (by simp only [List.length_take]; omega)
    · rw [← harith, hdrop']
      rw [← List.drop_drop,
        List.drop_left' (by
          simp only [List.length_append, List.length_take, uint_bytes_length]
          omega),
        List.drop_drop]
    · have hple : (ByteReader.mk data' p e).pos + w ≤ (ByteReader.mk data' p e).data.length := by
        show p + w ≤ data'.length
        rw [hlen'.trans hD1len]
        omega
      have hslice : (data'.drop p).take w = uint_bytes (e.isLE nl) w x := by
        have h3 : (data'.take (p + w)).drop p = (data'.drop p).take w := by
          rw [List.drop_take]
          congr 1
          omega
        rw [← h3, htake', hD1take,
          List.drop_left' (by simp only [List.length_take]; omega)]
      have hr1 : ByteReader.read_uint nl w (ByteReader.mk data' p e) =
          (.ok x, ByteReader.mk data' (p + w) e) := by
        have h := @read_uint_of_le (ByteReader.mk data' p e) nl w hple
        rw [show (ByteReader.mk data' p e).data.drop (ByteReader.mk data' p e).pos =
          data'.drop p from rfl] at h
        rw [hslice] at h
        rw [show (ByteReader.mk data' p e).endian.isLE nl = e.isLE nl from rfl] at h
        rw [uint_roundtrip _ w x hx] at h
        simpa using h
      simp only [List.length_cons, ByteReader.read_elems, hr1]
      rw [hread']
      have harith2 : p + w + w * l'.length = p + w * (l'.length + 1) := by
        rw [Nat.mul_succ]
        omega
      rw [harith2]

/-- C6: the length-prefixed `Vec` codec round-trips.  For every element list
(u`8w`-bit unsigned elements, which covers the `u32` elements and byte
elements of the documented examples) whose length fits in a `u32` and whose
encoding fits in the buffer, encoding writes a 4-byte unsigned count
followed by the elements in order, and decoding that output under the same
endianness returns the original list. -/
theorem c6_vec_roundtrip :
    ∀ (nl : Bool) (e : Endian) (w : Nat) (l buf : List Nat) (p : Nat),
      (∀ x ∈ l, x < 2 ^ (8 * w)) → l.length < 4294967296 →
      p + (4 + w * l.length) ≤ buf.length →
      ∃ data' : List Nat,
        ByteWriter.write_vec_uint nl w l (ByteWriter.mk buf p e) =
          (.ok (), ByteWriter.mk data' (p + (4 + w * l.length)) e) ∧
        data'.length = buf.length ∧
        data'.take p = buf.take p ∧
        (data'.drop p).take 4 = uint_bytes (e.isLE nl) 4 l.length ∧
        ByteReader.read_vec_uint nl w (ByteReader.mk data' p e) =
          (.ok l, ByteReader.mk data' (p + (4 + w * l.length)) e) := by
  intro nl e w l buf p hbd hcnt hbound
  have h4 : p + 4 ≤ buf.length := by omega
  have hs1 : ByteWriter.write_uint nl 4 l.length (ByteWriter.mk buf p e) =
      (.ok (), ByteWriter.mk
        (buf.take p ++ uint_bytes (e.isLE nl) 4 l.length ++ buf.drop (p + 4)) (p + 4) e) := by
    have h := @write_uint_of_le (ByteWriter.mk buf p e) nl 4 l.length h4
    simpa using h
  have hD1len : (buf.take p ++ uint_bytes (e.isLE nl) 4 l.length ++
      buf.drop (p + 4)).length = buf.length := by
    simp only [List.length_append, List.length_take, List.length_drop, uint_bytes_length]
    omega
  obtain ⟨data', hw1, hlen', htake', hdrop', hread'⟩ :=
    elems_uint_roundtrip nl w e l
      (buf.take p ++ uint_bytes (e.isLE nl) 4 l.length ++ buf.drop (p + 4)) (p + 4) hbd
      (by rw [hD1len]; omega)
  have hD1take : (buf.take p ++ uint_bytes (e.isLE nl) 4 l.length ++
      buf.drop (p + 4)).take (p + 4) = buf.take p ++ uint_bytes (e.isLE nl) 4 l.length :=
    List.take_left' (by
      simp only [List.length_append, List.length_take, uint_bytes_length]
      omega)
  have harith : (p + 4) + w * l.length = p + (4 + w * l.length) := by omega
  have h3 : (data'.take (p + 4)).drop p = (data'.drop p).take 4 := by
    rw [List.drop_take]
    congr 1
    omega
  have hslice : (data'.drop p).take 4 = uint_bytes (e.isLE nl) 4 l.length := by
    rw [← h3, htake', hD1take, List.drop_left' (by simp only [List.length_take]; omega)]
  refine ⟨data', ?_, hlen'.trans hD1len, ?_, hslice, ?_⟩
  · simp only [ByteWriter.write_vec_uint, ByteWriter.write_vec]
    rw [if_neg (by omega)]
    simp only [hs1]
    rw [hw1, harith]
  · have h1 : data'.take p = (data'.take (p + 4)).take p := by
      rw [List.take_take]
      congr 1
      omega
    rw [h1, htake', hD1take]
    exact List.take_left' (by simp only [List.length_take]; omega)
  · have hple : (ByteReader.mk data' p e).pos + 4 ≤ (ByteReader.mk data' p e).data.length := by
      show p + 4 ≤ data'.length
      rw [hlen'.trans hD1len]
      omega
    have hcnt2 : l.length < 2 ^ (8 * 4) := by
      have hp2 : (2 : Nat) ^ (8 * 4) = 4294967296 := by norm_num
      rw [hp2]
      exact hcnt
    have hr1 : ByteReader.read_uint nl 4 (ByteReader.mk data' p e) =
        (.ok l.length, ByteReader.mk data' (p + 4) e) := by
      have h := @read_uint_of_le (ByteReader.mk data' p e) nl 4 hple
      rw [show (ByteReader.mk data' p e).data.drop (ByteReader.mk data' p e).pos =
        data'.drop p from rfl] at h
      rw [hslice] at h
      rw [show (ByteReader.mk data' p e).endian.isLE nl = e.isLE nl from rfl] at h
      rw [uint_roundtrip _ 4 l.length hcnt2] at h
      simpa using h
    simp only [ByteReader.read_vec_uint, ByteReader.read_vec, hr1]
    rw [hread', harith]

/-- C6 witness: the documented instances — the empty vector, `[1,2,3,4,5]`
as 4-byte unsigned elements, and a 1000-element byte vector. -/
theorem c6_vec_roundtrip_witness :
    ((∀ x ∈ ([] : List Nat), x < 2 ^ (8 * 4)) ∧
      ([] : List Nat).length < 4294967296 ∧
      0 + (4 + 4 * ([] : List Nat).length) ≤ ([9, 9, 9, 9] : List Nat).length ∧
      ∃ data' : List Nat,
        ByteWriter.write_vec_uint true 4 [] (ByteWriter.mk [9, 9, 9, 9] 0 Endian.little) =
          (.ok (), ByteWriter.mk data' (0 + (4 + 4 * ([] : List Nat).length)) Endian.little) ∧
        data'.length = ([9, 9, 9, 9] : List Nat).length ∧
        data'.take 0 = ([9, 9, 9, 9] : List Nat).take 0 ∧
        (data'.drop 0).take 4 = uint_bytes (Endian.little.isLE true) 4 ([] : List Nat).length ∧
        ByteReader.read_vec_uint true 4 (ByteReader.mk data' 0 Endian.little) =
          (.ok [], ByteReader.mk data' (0 + (4 + 4 * ([] : List Nat).length)) Endian.little)) ∧
    ((∀ x ∈ ([1, 2, 3, 4, 5] : List Nat), x < 2 ^ (8 * 4)) ∧
      ([1, 2, 3, 4, 5] : List Nat).length < 4294967296 ∧
      0 + (4 + 4 * ([1, 2, 3, 4, 5] : List Nat).length) ≤
        (List.replicate 24 0 : List Nat).length ∧
      ∃ data' : List Nat,
        ByteWriter.write_vec_uint true 4 [1, 2, 3, 4, 5]
            (ByteWriter.mk (List.replicate 24 0) 0 Endian.big) =
          (.ok (), ByteWriter.mk data'
            (0 + (4 + 4 * ([1, 2, 3, 4, 5] : List Nat).length)) Endian.big) ∧
        data'.length = (List.replicate 24 0 : List Nat).length ∧
        data'.take 0 = (List.replicate 24 0 : List Nat).take 0 ∧
        (data'.drop 0).take 4 =
          uint_bytes (Endian.big.isLE true) 4 ([1, 2, 3, 4, 5] : List Nat).length ∧
        ByteReader.read_vec_uint true 4 (ByteReader.mk data' 0 Endian.big) =
          (.ok [1, 2, 3, 4, 5], ByteReader.mk data'
            (0 + (4 + 4 * ([1, 2, 3, 4, 5] : List Nat).length)) Endian.big)) ∧
    ((∀ x ∈ List.replicate 1000 7, x < 2 ^ (8 * 1)) ∧
      (List.replicate 1000 7 : List Nat).length < 4294967296 ∧
      0 + (4 + 1 * (List.replicate 1000 7 : List Nat).length) ≤
        (List.replicate 1004 0 : List Nat).length ∧
      ∃ data' : List Nat,
        ByteWriter.write_vec_uint false 1 (List.replicate 1000 7)
            (ByteWriter.mk (List.replicate 1004 0) 0 Endian.native) =
          (.ok (), ByteWriter.mk data'
            (0 + (4 + 1 * (List.replicate 1000 7 : List Nat).length)) Endian.native) ∧
        data'.length = (List.replicate 1004 0 : List Nat).length ∧
        data'.take 0 = (List.replicate 1004 0 : List Nat).take 0 ∧
        (data'.drop 0).take 4 =
          uint_bytes (Endian.native.isLE false) 4 (List.replicate 1000 7 : List Nat).length ∧
        ByteReader.read_vec_uint false 1 (ByteReader.mk data' 0 Endian.native) =
          (.ok (List.replicate 1000 7), ByteReader.mk data'
            (0 + (4 + 1 * (List.replicate 1000 7 : List Nat).length)) Endian.native)) :=
  ⟨⟨by decide, by decide, by decide,
      c6_vec_roundtrip true Endian.little 4 [] [9, 9, 9, 9] 0
        (by decide) (by decide) (by decide)⟩,
    ⟨by decide, by decide, by decide,
      c6_vec_roundtrip true Endian.big 4 [1, 2, 3, 4, 5] (List.replicate 24 0) 0
        (by decide) (by decide) (by decide)⟩,
    ⟨by
        intro x hx
        rw [List.eq_of_mem_replicate hx]
        norm_num,
      by norm_num [List.length_replicate],
      by norm_num [List.length_replicate],
      c6_vec_roundtrip false Endian.native 1 (List.replicate 1000 7) (List.replicate 1004 0) 0
        (by
          intro x hx
          rw [List.eq_of_mem_replicate hx]
          norm_num)
        (by norm_num [List.length_replicate])
        (by norm_num [List.length_replicate])⟩⟩
